import Mathlib

/-!
# MP_report_parser: the extraction-and-normalisation pipeline

A shallow embedding of `src/main/main.go`.

Go strings are modelled by Lean `String` (sequences of Unicode scalars, the
runes Go decodes from valid UTF-8); the characters the code inspects
(`<`, `>`, `/`, `.`, white space) are recognised rune by rune in Go as well.
Go slices are modelled by `List`, the nil slice by `[]`.  Diagnostics printed
with `fmt.Printf` are not part of the model.
-/

namespace MPReportParser

/-! ## Cell normaliser: `removeHTMLTags` and `strings.TrimSpace` -/

/-- Number of leading characters other than `>`: the longest run that the
greedy class `[^>]+` can consume at the front of the input. -/
def spanNotGt : List Char → Nat
  | [] => 0
  | c :: cs => if c = '>' then 0 else spanNotGt cs + 1

/-- Length of the match of the regular expression `</?[^>]+>` anchored at the
front of the input, if there is one.  The optional `/` is itself a character
of the class `[^>]`, so a match is `<`, a non-empty run of characters other
than `>`, and the `>` that ends the run. -/
def tagMatchLen : List Char → Option Nat
  | [] => none
  | c :: rest =>
    if c = '<' then
      if 1 ≤ spanNotGt rest ∧ rest[spanNotGt rest]? = some '>' then
        some (spanNotGt rest + 2)
      else none
    else none

/-- The scan of `Regexp.ReplaceAllString(s, "")`: at each position the
leftmost match is deleted and the scan resumes right after it; a position
without a match copies its character.  The first argument counts the
characters of a match that are still to be skipped. -/
def replaceAllAux : Nat → List Char → List Char
  | _, [] => []
  | skip + 1, _ :: cs => replaceAllAux skip cs
  | 0, c :: cs =>
    match tagMatchLen (c :: cs) with
    | some (n + 1) => replaceAllAux n cs
    | _ => c :: replaceAllAux 0 cs

/-- Source: `removeHTMLTags`, `regexp.MustCompile("</?[^>]+>")` followed by
`re.ReplaceAllString(s, "")`. -/
def removeHTMLTags (s : String) : String := ⟨replaceAllAux 0 s.data⟩

/-- Go's `unicode.IsSpace`: the code points with the White_Space property. -/
def isSpace (c : Char) : Bool :=
  (0x09 ≤ c.toNat && c.toNat ≤ 0x0D) || c.toNat == 0x20 || c.toNat == 0x85 ||
  c.toNat == 0xA0 || c.toNat == 0x1680 || (0x2000 ≤ c.toNat && c.toNat ≤ 0x200A) ||
  c.toNat == 0x2028 || c.toNat == 0x2029 || c.toNat == 0x202F || c.toNat == 0x205F ||
  c.toNat == 0x3000

/-- Go's `strings.TrimLeftFunc(s, unicode.IsSpace)` on the runes. -/
def trimLeft (cs : List Char) : List Char := cs.dropWhile isSpace

/-- Go's `strings.TrimRightFunc(s, unicode.IsSpace)` on the runes. -/
def trimRight (cs : List Char) : List Char := (cs.reverse.dropWhile isSpace).reverse

/-- Go's `strings.TrimSpace`: all leading and trailing white space removed. -/
def TrimSpace (s : String) : String := ⟨trimRight (trimLeft s.data)⟩

/-- The cell normalisation of `parseExcelXML`:
`strings.TrimSpace(removeHTMLTags(cell.Data))`. -/
def normalize (raw : String) : String := TrimSpace (removeHTMLTags raw)

/-! ## Table model, `parseExcelXML` and the aggregation in `main` -/

/-- Source: `type Cell`, the inner XML of a cell. -/
structure Cell where
  Data : String
deriving DecidableEq, Repr

/-- Source: `type Row`. -/
structure Row where
  Cells : List Cell
deriving DecidableEq, Repr

/-- Source: `type Sheet`, one `Worksheet>Table` element. -/
structure Sheet where
  Rows : List Row
deriving DecidableEq, Repr

/-- Source: `type Workbook`. -/
structure Workbook where
  Sheets : List Sheet
deriving DecidableEq, Repr

/-- The header label tested by `parseExcelXML`. -/
def headerLabel : String := "Задача"

/-- Body of the loop over `row.Cells`; the state is `(rowData, emptyRow)`. -/
def cellStep (st : List String × Bool) (cell : Cell) : List String × Bool :=
  let trimmed := normalize cell.Data
  (st.1 ++ [trimmed], if trimmed ≠ "" then false else st.2)

/-- Body of the loop over `sheet.Rows`; the state is `result`. -/
def rowStep (result : List (List String)) (row : Row) : List (List String) :=
  let st := row.Cells.foldl cellStep ([], true)
  if st.2 then result
  else if 0 < st.1.length ∧ st.1[0]? = some headerLabel then result
  else result ++ [st.1]

/-- Body of the loop over `workbook.Sheets`. -/
def sheetStep (result : List (List String)) (sheet : Sheet) : List (List String) :=
  sheet.Rows.foldl rowStep result

/-- The part of `parseExcelXML` after decoding: the nested loops that build
`result` from the workbook. -/
def parseWorkbook (wb : Workbook) : List (List String) :=
  wb.Sheets.foldl sheetStep []

/-- The two external calls of `parseExcelXML`: `os.ReadFile` and
`xml.Unmarshal` into a `Workbook`. -/
structure FileEnv where
  ReadFile : String → Except String (List Nat)
  Unmarshal : List Nat → Except String Workbook

/-- Source: `parseExcelXML`.  A read or decode failure returns nil. -/
def parseExcelXML (env : FileEnv) (filePath : String) : List (List String) :=
  match env.ReadFile filePath with
  | .error _ => []
  | .ok xmlFile =>
    match env.Unmarshal xmlFile with
    | .error _ => []
    | .ok workbook => parseWorkbook workbook

/-- Source: the loop of `main` over `xmlFiles` that fills `allData`; the test
`rows != nil` is the test for a non-empty list. -/
def collectAllData (env : FileEnv) (xmlFiles : List String) : List (List String) :=
  xmlFiles.foldl
    (fun allData file =>
      let rows := parseExcelXML env file
      if rows ≠ [] then allData ++ rows else allData)
    []

/-! ## Paths: `filepath.Clean`, `filepath.Join`, `filepath.Dir` on Unix

The output buffer of `Clean` is represented by the list of the elements
written to it so far; the loop of `Clean` consumes the path one element at a
time. -/

/-- The segments of a path between its separators (`strings.Split(p, "/")`). -/
def splitSep : List Char → List (List Char)
  | [] => [[]]
  | c :: cs =>
    if c = '/' then [] :: splitSep cs
    else
      match splitSep cs with
      | [] => [[c]]
      | seg :: segs => (c :: seg) :: segs

/-- The elements written out with one separator between neighbours
(`strings.Join(elems, "/")`). -/
def joinSep : List (List Char) → List Char
  | [] => []
  | [e] => e
  | e :: es => e ++ '/' :: joinSep es

/-- The condition `out.w > dotdot` of `Clean`: the output ends in an element
that a `..` can remove, one that is not itself a kept `..`. -/
def canBacktrack (out : List (List Char)) : Bool :=
  match out.getLast? with
  | none => false
  | some top => top ≠ ['.', '.']

/-- One round of the loop of `filepath.Clean`, on the next path element:
an empty element and `.` are dropped; `..` removes the last element of the
output when it can backtrack, is kept in a path that is not rooted, and is
dropped at the root; any other element is appended. -/
def cleanStep (rooted : Bool) (out : List (List Char)) (elem : List Char) : List (List Char) :=
  if elem = [] ∨ elem = ['.'] then out
  else if elem = ['.', '.'] then
    if canBacktrack out then out.dropLast
    else if !rooted then out ++ [elem]
    else out
  else out ++ [elem]

/-- Go's `filepath.Clean` on the runes of a Unix path. -/
def cleanChars (path : List Char) : List Char :=
  if path = [] then ['.']
  else if path.head? = some '/' then
    '/' :: joinSep ((splitSep path).foldl (cleanStep true) [])
  else if (splitSep path).foldl (cleanStep false) [] = [] then ['.']
  else joinSep ((splitSep path).foldl (cleanStep false) [])

/-- Go's `filepath.Clean`. -/
def Clean (path : String) : String := ⟨cleanChars path.data⟩

/-- Go's `filepath.Join`: the elements from the first non-empty one on are
joined with separators and the result is cleaned; no such element gives the
empty string. -/
def Join (elem : List String) : String :=
  match elem.dropWhile (fun e => e = "") with
  | [] => ""
  | es => ⟨cleanChars (joinSep (es.map String.data))⟩

/-- Go's `filepath.Dir`: the path up to its last separator, cleaned. -/
def Dir (path : String) : String :=
  ⟨cleanChars (path.data.reverse.dropWhile (fun c => c ≠ '/')).reverse⟩

/-- Go's `strings.HasPrefix`. -/
def HasPrefix (s pre : String) : Bool := pre.data.isPrefixOf s.data

/-- Go's `strings.HasSuffix`. -/
def HasSuffix (s suf : String) : Bool := suf.data.isSuffixOf s.data

/-! ## Archive extraction: `extractZip` and `unzipArchives`

The effect of the program on the file system is the sequence of calls it
issues; whether a call fails is decided by the environment. -/

/-- What `extractZip` reads of a `zip.File`: its name, `FileInfo().IsDir()`,
`Mode()` and the bytes that `Open()` delivers. -/
structure ZipFile where
  Name : String
  IsDir : Bool
  Mode : Nat
  Content : List Nat
deriving DecidableEq, Repr

/-- What `unzipArchives` reads of an `os.DirEntry`. -/
structure DirEntry where
  Name : String
  IsDir : Bool
deriving DecidableEq, Repr

/-- The calls to the operating system and to the zip reader, in the order
the program issues them. -/
inductive FsOp where
  | readDir (dir : String)
  | openReader (src : String)
  | mkdirAll (path : String)
  | openFile (path : String) (mode : Nat)
  | openEntry (name : String)
  | copy (path : String) (content : List Nat)
deriving DecidableEq, Repr

/-- The environment: what a directory listing and an archive contain, and
which call fails with which message, each depending on the calls issued so
far. -/
structure World where
  readDir : List FsOp → String → Except String (List DirEntry)
  openReader : List FsOp → String → Except String (List ZipFile)
  fail : List FsOp → FsOp → Option String

/-- Issues the calls one after the other and stops at the first that fails;
returns the calls issued so far and the error, if any. -/
def runOps (w : World) : List FsOp → List FsOp → List FsOp × Option String
  | tr, [] => (tr, none)
  | tr, op :: ops =>
    match w.fail tr op with
    | some e => (tr ++ [op], some e)
    | none => runOps w (tr ++ [op]) ops

/-- The calls of one round of the loop of `extractZip` once the path test has
passed: `MkdirAll(fpath)` for a directory entry; for a file entry
`MkdirAll(filepath.Dir(fpath))`, `OpenFile(fpath, ..., f.Mode())`, `f.Open()`
and `io.Copy`. -/
def entryOps (f : ZipFile) (fpath : String) : List FsOp :=
  if f.IsDir then [FsOp.mkdirAll fpath]
  else [FsOp.mkdirAll (Dir fpath), FsOp.openFile fpath f.Mode, FsOp.openEntry f.Name,
    FsOp.copy fpath f.Content]

/-- The path `fpath` of an entry: `filepath.Join(dest, filepath.Clean(f.Name))`. -/
def entryPath (dest name : String) : String := Join [dest, Clean name]

/-- The path test of `extractZip`:
`strings.HasPrefix(fpath, filepath.Clean(dest)+string(os.PathSeparator))`. -/
def pathAllowed (dest fpath : String) : Bool := HasPrefix fpath (Clean dest ++ "/")

/-- The error `fmt.Errorf("недопустимый путь: %s", fpath)`. -/
def pathError (fpath : String) : String := "недопустимый путь: " ++ fpath

/-- The loop of `extractZip` over `r.File`, from the calls issued so far. -/
def extractEntries (w : World) (dest : String) :
    List ZipFile → List FsOp → List FsOp × Option String
  | [], tr => (tr, none)
  | f :: fs, tr =>
    if !pathAllowed dest (entryPath dest f.Name) then
      (tr, some (pathError (entryPath dest f.Name)))
    else
      match runOps w tr (entryOps f (entryPath dest f.Name)) with
      | (tr', some e) => (tr', some e)
      | (tr', none) => extractEntries w dest fs tr'

/-- Source: `extractZip`. -/
def extractZip (w : World) (src dest : String) (tr : List FsOp) : List FsOp × Option String :=
  match w.openReader tr src with
  | .error e => (tr ++ [FsOp.openReader src], some e)
  | .ok files => extractEntries w dest files (tr ++ [FsOp.openReader src])

/-- The result of `unzipArchives`: the calls issued, `processedArchives` and
the error. -/
structure UnzipResult where
  trace : List FsOp
  processed : List String
  err : Option String
deriving DecidableEq, Repr

/-- The loop of `unzipArchives` over the directory listing. -/
def unzipLoop (w : World) (ToLower : String → String) (dir : String) :
    List DirEntry → List FsOp → List String → UnzipResult
  | [], tr, processed => ⟨tr, processed, none⟩
  | file :: files, tr, processed =>
    if file.IsDir || !HasSuffix (ToLower file.Name) ".zip" then
      unzipLoop w ToLower dir files tr processed
    else
      match extractZip w (Join [dir, file.Name]) dir tr with
      | (tr', some e) => ⟨tr', processed, some ("ошибка распаковки " ++ file.Name ++ ": " ++ e)⟩
      | (tr', none) => unzipLoop w ToLower dir files tr' (processed ++ [Join [dir, file.Name]])

/-- Source: `unzipArchives`; `strings.ToLower` is a parameter. -/
def unzipArchives (w : World) (ToLower : String → String) (dir : String) (tr : List FsOp) :
    UnzipResult :=
  match w.readDir tr dir with
  | .error e => ⟨tr ++ [FsOp.readDir dir], [], some e⟩
  | .ok files => unzipLoop w ToLower dir files (tr ++ [FsOp.readDir dir]) []

/-! ## Reference definitions, written from the specification -/

/-- A tag in the words of the specification: `<`, an optional `/`, one or
more characters other than `>`, then `>`. -/
def IsTag (w : List Char) : Prop :=
  ∃ slash body : List Char, (slash = [] ∨ slash = ['/']) ∧ body ≠ [] ∧
    (∀ c ∈ body, c ≠ '>') ∧ w = ['<'] ++ slash ++ body ++ ['>']

/-- No substring of the text is a tag. -/
def TagFree (l : List Char) : Prop :=
  ∀ pre w post : List Char, l = pre ++ w ++ post → ¬ IsTag w

/-- The text is empty or consists of white space only. -/
def isBlank (s : String) : Bool := s.data.all isSpace

/-- The text starts with a white-space character. -/
def hasLeadingSpace (s : String) : Bool :=
  match s.data.head? with
  | some c => isSpace c
  | none => false

/-- The text ends with a white-space character. -/
def hasTrailingSpace (s : String) : Bool :=
  match s.data.getLast? with
  | some c => isSpace c
  | none => false

/-- The row filter of the specification: at least one non-empty cell, and
the first cell is not the header label. -/
def acceptRow (r : List String) : Bool :=
  r.any (fun c => c ≠ "") && !(r.head? == some headerLabel)

/-- All rows of a workbook, worksheet by worksheet. -/
def allRows (wb : Workbook) : List Row :=
  wb.Sheets.flatMap (fun s => s.Rows)

/-- A raw row with every cell normalised. -/
def normalizeRow (r : Row) : List String :=
  r.Cells.map (fun c => normalize c.Data)

/-- The specification of the table parser after decoding: normalise every
row, keep the accepted ones. -/
def parseSpec (wb : Workbook) : List (List String) :=
  ((allRows wb).map normalizeRow).filter acceptRow

/-- A file fails when it cannot be read or its bytes cannot be decoded. -/
def fileFails (env : FileEnv) (filePath : String) : Bool :=
  match env.ReadFile filePath with
  | .error _ => true
  | .ok xmlFile =>
    match env.Unmarshal xmlFile with
    | .error _ => true
    | .ok _ => false

/-- The aggregation of the specification: the accepted rows of every file,
one file after the other. -/
def aggregateSpec (env : FileEnv) (xmlFiles : List String) : List (List String) :=
  (xmlFiles.map (parseExcelXML env)).flatten

/-- The paths at which a call creates or writes something. -/
def FsOp.target : FsOp → Option String
  | FsOp.mkdirAll p => some p
  | FsOp.openFile p _ => some p
  | FsOp.copy p _ => some p
  | _ => none

/-- The elements of a path that name something: the segments other than the
empty one and `.`. -/
def elements (path : String) : List (List Char) :=
  (splitSep path.data).filter (fun e => e ≠ [] ∧ e ≠ ['.'])

/-- Path containment, read off the cleaned paths: the elements of the cleaned
path are those of the cleaned root followed by at least one more element, and
none of the elements that follow the root is `..`.  Under the root `..` the
path `../ok.xml` is inside and `../../escape.xml` is not. -/
def StrictlyInside (dest path : String) : Prop :=
  ∃ rest : List (List Char), rest ≠ [] ∧
    elements (Clean path) = elements (Clean dest) ++ rest ∧ ['.', '.'] ∉ rest

/-- Go's `filepath.Abs` on Unix for the working directory `wd`: an absolute
path is cleaned, any other path is joined to the working directory. -/
def Abs (wd path : String) : String :=
  if path.data.head? = some '/' then Clean path else Join [wd, path]

/-- Every archive of the list is extracted without error, one after the
other, the calls of each extraction following those of the one before; the
two lists of calls are those issued before the first and after the last. -/
def AllSucceed (w : World) (dir : String) : List String → List FsOp → List FsOp → Prop
  | [], tr, tr' => tr' = tr
  | path :: paths, tr, tr' =>
    ∃ tr1, extractZip w path dir tr = (tr1, none) ∧ AllSucceed w dir paths tr1 tr'

/-- The archives a call of `extractZip` was issued for, in order. -/
def attempted (tr : List FsOp) : List String :=
  tr.filterMap (fun op => match op with
    | FsOp.openReader src => some src
    | _ => none)

/-- An archive of a listing in the words of the specification: an entry that
is not a directory and whose lower-cased name ends in `.zip`. -/
def isArchive (ToLower : String → String) (file : DirEntry) : Bool :=
  !file.IsDir && HasSuffix (ToLower file.Name) ".zip"

/-- The archives of a listing, in listing order. -/
def archives (ToLower : String → String) (files : List DirEntry) : List DirEntry :=
  files.filter (isArchive ToLower)

/-- The paths of the archives of a listing, in listing order. -/
def archivePaths (ToLower : String → String) (dir : String) (files : List DirEntry) :
    List String :=
  (files.filter (isArchive ToLower)).map (fun file => Join [dir, file.Name])

/-- The names of the archives of a listing, in listing order. -/
def archiveNames (ToLower : String → String) (files : List DirEntry) : List String :=
  (files.filter (isArchive ToLower)).map (fun file => file.Name)

/-! ## Invariants used in the proofs -/

/-- The invariant of scanned text: every `<` is directly followed by `>` or
has no `>` anywhere after it. -/
def Settled : List Char → Prop
  | [] => True
  | c :: cs => (c = '<' → cs.head? = some '>' ∨ '>' ∉ cs) ∧ Settled cs

/-- An element that names a file or directory: not empty, without a
separator, neither `.` nor `..`. -/
def IsName (e : List Char) : Prop :=
  e ≠ [] ∧ '/' ∉ e ∧ e ≠ ['.'] ∧ e ≠ ['.', '.']

/-- The output elements of `Clean` on a rooted path. -/
def rootedOut (path : List Char) : List (List Char) :=
  (splitSep path).foldl (cleanStep true) []

/-- A cleaned rooted path: a separator followed by names. -/
def CleanRooted (p : String) : Prop :=
  ∃ out : List (List Char), (∀ x ∈ out, IsName x) ∧ p.data = '/' :: joinSep out

/-! ## Sample inputs -/

/-- One worksheet with a header-repeat row, a data row and an empty row. -/
def sampleWorkbook : Workbook :=
  ⟨[⟨[⟨[⟨"Задача"⟩, ⟨"IP"⟩]⟩, ⟨[⟨"Task1"⟩, ⟨"10.0.0.1"⟩]⟩, ⟨[⟨""⟩, ⟨""⟩, ⟨""⟩]⟩]⟩]⟩

/-- Two worksheets; cells carry inline tags and surrounding white space. -/
def markupWorkbook : Workbook :=
  ⟨[⟨[⟨[⟨" <html:B>Задача</html:B> "⟩, ⟨"x"⟩]⟩, ⟨[⟨"<b> </b>"⟩, ⟨"  "⟩]⟩, ⟨[]⟩]⟩,
    ⟨[⟨[⟨"Task2"⟩, ⟨"<html:Font>10.0.0.2</html:Font>"⟩]⟩, ⟨[⟨"Task3"⟩]⟩]⟩]⟩

/-- A directory of four files with the bytes `[1]`, `[2]`, `[3]`; the file
`missing.xml` cannot be read and the bytes `[3]` of `broken.xml` do not decode. -/
def sampleEnv : FileEnv where
  ReadFile := fun p =>
    if p = "a.xml" then .ok [1]
    else if p = "b.xml" then .ok [2]
    else if p = "broken.xml" then .ok [3]
    else .error "open: no such file"
  Unmarshal := fun b =>
    if b = [1] then .ok sampleWorkbook
    else if b = [2] then .ok markupWorkbook
    else .error "XML syntax error"

/-- The listing of the directory `/work`, sorted by name as `os.ReadDir`
returns it. -/
def sampleListing : List DirEntry :=
  [⟨"a.zip", false⟩, ⟨"dir.zip", true⟩, ⟨"evil.ZIP", false⟩, ⟨"notes.txt", false⟩,
    ⟨"odd.zip", false⟩, ⟨"sub", true⟩]

/-- A world in which no call fails; the directory `/good` lists two sound
archives; the archive `a.zip` holds a directory and a file, `/work/evil.ZIP` a good file, an escaping file and one
more file, `odd.zip` a name with an inner `..` and an absolute name,
`x.zip` the escaping file only. -/
def sampleWorld : World where
  readDir := fun _ dir =>
    if dir = "/work" then .ok sampleListing
    else if dir = "/good" then .ok [⟨"a.zip", false⟩, ⟨"odd.zip", false⟩, ⟨"readme", false⟩]
    else .error "no such directory"
  openReader := fun _ src =>
    if src = "/work/a.zip" ∨ src = "/good/a.zip" then
      .ok [⟨"d/", true, 493, []⟩, ⟨"d/r.xml", false, 420, [1, 2]⟩]
    else if src = "/work/evil.ZIP" then
      .ok [⟨"ok.xml", false, 420, [3]⟩, ⟨"../escape.xml", false, 420, [4]⟩,
        ⟨"late.xml", false, 420, [5]⟩]
    else if src = "/work/odd.zip" ∨ src = "/good/odd.zip" then
      .ok [⟨"a/../b.xml", false, 420, [6]⟩, ⟨"/etc/passwd", false, 420, [7]⟩]
    else if src = "x.zip" then .ok [⟨"../escape.xml", false, 420, [4]⟩]
    else .error "not a zip file"
  fail := fun _ _ => none

/-- Lower-casing of ASCII names. -/
def asciiLower (s : String) : String := ⟨s.data.map Char.toLower⟩

/-! ## Lemmas on the tag scan -/

theorem spanNotGt_le (cs : List Char) : spanNotGt cs ≤ cs.length := by
  induction cs with
  | nil => simp [spanNotGt]
  | cons c cs ih =>
    by_cases h : c = '>'
    · simp [spanNotGt, h]
    · simp [spanNotGt, h, ih]

theorem spanNotGt_eq_zero {cs : List Char} (h : spanNotGt cs = 0) :
    cs = [] ∨ cs.head? = some '>' := by
  cases cs with
  | nil => exact Or.inl rfl
  | cons c cs =>
    by_cases hc : c = '>'
    · exact Or.inr (by simp [hc])
    · simp [spanNotGt, hc] at h

theorem take_spanNotGt (cs : List Char) : ∀ c ∈ cs.take (spanNotGt cs), c ≠ '>' := by
  induction cs with
  | nil => simp [spanNotGt]
  | cons c cs ih =>
    by_cases hc : c = '>'
    · simp [spanNotGt, hc]
    · intro x hx
      simp only [spanNotGt, hc, if_false, List.take_succ_cons, List.mem_cons] at hx
      rcases hx with rfl | hx
      · exact hc
      · exact ih x hx

theorem get?_spanNotGt (cs : List Char) :
    cs[spanNotGt cs]? = some '>' ∨ (cs[spanNotGt cs]? = none ∧ '>' ∉ cs) := by
  induction cs with
  | nil => simp [spanNotGt]
  | cons c cs ih =>
    by_cases hc : c = '>'
    · left; simp [spanNotGt, hc]
    · rcases ih with h | ⟨h, hn⟩
      · left; simpa [spanNotGt, hc] using h
      · right
        refine ⟨by simpa [spanNotGt, hc] using h, ?_⟩
        simp only [List.mem_cons, not_or]
        exact ⟨fun e => hc e.symm, hn⟩

theorem replaceAllAux_drop (n : Nat) (cs : List Char) :
    replaceAllAux n cs = replaceAllAux 0 (cs.drop n) := by
  induction n generalizing cs with
  | zero => simp
  | succ n ih =>
    cases cs with
    | nil => simp [replaceAllAux]
    | cons c cs => simp [replaceAllAux, ih cs]

theorem replaceAllAux_mem (n : Nat) (cs : List Char) :
    ∀ x ∈ replaceAllAux n cs, x ∈ cs := by
  induction cs generalizing n with
  | nil => simp [replaceAllAux]
  | cons c cs ih =>
    intro x hx
    cases n with
    | succ n =>
      simp only [replaceAllAux] at hx
      exact List.mem_cons_of_mem _ (ih n x hx)
    | zero =>
      unfold replaceAllAux at hx
      split at hx
      · exact List.mem_cons_of_mem _ (ih _ x hx)
      · rcases List.mem_cons.1 hx with rfl | hx
        · exact List.mem_cons_self _ _
        · exact List.mem_cons_of_mem _ (ih 0 x hx)

theorem tagMatchLen_none_of_settled {c : Char} {cs : List Char}
    (h : c = '<' → cs.head? = some '>' ∨ '>' ∉ cs) : tagMatchLen (c :: cs) = none := by
  by_cases hc : c = '<'
  · simp only [tagMatchLen, hc, if_true]
    rw [if_neg]
    rintro ⟨h1, h2⟩
    rcases h hc with hh | hn
    · cases cs with
      | nil => simp at hh
      | cons d ds =>
        simp only [List.head?_cons, Option.some.injEq] at hh
        simp [spanNotGt, hh] at h1
    · exact hn (List.getElem?_mem h2)
  · simp [tagMatchLen, hc]

theorem replaceAllAux_settled (cs : List Char) (h : Settled cs) : replaceAllAux 0 cs = cs := by
  induction cs with
  | nil => simp [replaceAllAux]
  | cons c cs ih =>
    unfold replaceAllAux
    rw [tagMatchLen_none_of_settled h.1]
    simp [ih h.2]

theorem settled_replaceAllAux (n : Nat) (cs : List Char) : Settled (replaceAllAux n cs) := by
  induction cs generalizing n with
  | nil => simp [replaceAllAux, Settled]
  | cons c cs ih =>
    cases n with
    | succ n => simpa [replaceAllAux] using ih n
    | zero =>
      unfold replaceAllAux
      split
      · exact ih _
      · rename_i hno
        refine ⟨?_, ih 0⟩
        intro hc
        have hnone : tagMatchLen (c :: cs) = none := by
          cases hm : tagMatchLen (c :: cs) with
          | none => rfl
          | some m =>
            cases m with
            | zero =>
              simp only [tagMatchLen, hc, if_true] at hm
              split at hm <;> simp at hm
            | succ m => exact absurd hm (hno m)
        simp only [tagMatchLen, hc, if_true] at hnone
        by_cases h1 : 1 ≤ spanNotGt cs
        · have h2 : ¬ cs[spanNotGt cs]? = some '>' := by
            intro h2
            rw [if_pos ⟨h1, h2⟩] at hnone
            simp at hnone
          rcases get?_spanNotGt cs with h3 | ⟨_, h3⟩
          · exact absurd h3 h2
          · exact Or.inr (fun hx => h3 (replaceAllAux_mem 0 cs _ hx))
        · have h0 : spanNotGt cs = 0 := by omega
          rcases spanNotGt_eq_zero h0 with rfl | hh
          · right; simp [replaceAllAux]
          · cases cs with
            | nil => simp at hh
            | cons d ds =>
              simp only [List.head?_cons, Option.some.injEq] at hh
              left
              subst hh
              unfold replaceAllAux
              simp [tagMatchLen]

theorem settled_of_append_right (a b : List Char) (h : Settled (a ++ b)) : Settled b := by
  induction a with
  | nil => simpa using h
  | cons c a ih => exact ih h.2

theorem settled_of_append_left (a b : List Char) (h : Settled (a ++ b)) : Settled a := by
  induction a with
  | nil => trivial
  | cons c a ih =>
    refine ⟨?_, ih h.2⟩
    intro hc
    rcases h.1 hc with hh | hn
    · cases a with
      | nil => right; simp
      | cons d a => left; simpa using hh
    · right
      intro hx
      exact hn (List.mem_append_left _ hx)

theorem tagFree_of_settled (l : List Char) (h : Settled l) : TagFree l := by
  rintro pre w post rfl ⟨slash, body, hs, hb, hng, rfl⟩
  have h1 : Settled ((['<'] ++ slash ++ body ++ ['>']) ++ post) := by
    apply settled_of_append_right pre
    simpa [List.append_assoc] using h
  have h2 := h1.1 rfl
  cases body with
  | nil => exact hb rfl
  | cons b body =>
    have hb' : b ≠ '>' := hng b (List.mem_cons_self _ _)
    rcases hs with rfl | rfl
    · rcases h2 with h2 | h2
      · simp at h2; exact hb' h2
      · simp at h2
    · rcases h2 with h2 | h2
      · simp at h2
      · simp at h2

/-! ## Lemmas on trimming -/

theorem trimLeft_suffix (cs : List Char) : ∃ a, cs = a ++ trimLeft cs :=
  ⟨cs.takeWhile isSpace, (List.takeWhile_append_dropWhile isSpace cs).symm⟩

theorem trimRight_prefix (cs : List Char) : ∃ b, cs = trimRight cs ++ b := by
  refine ⟨(cs.reverse.takeWhile isSpace).reverse, ?_⟩
  have := List.takeWhile_append_dropWhile isSpace cs.reverse
  have h2 := congrArg List.reverse this
  simp only [List.reverse_append, List.reverse_reverse] at h2
  exact h2.symm

theorem settled_trim (cs : List Char) (h : Settled cs) : Settled (trimRight (trimLeft cs)) := by
  obtain ⟨a, ha⟩ := trimLeft_suffix cs
  obtain ⟨b, hb⟩ := trimRight_prefix (trimLeft cs)
  have h1 : Settled (trimLeft cs) := settled_of_append_right a _ (ha ▸ h)
  exact settled_of_append_left _ b (hb ▸ h1)

theorem trimLeft_head (cs : List Char) : ∀ c, (trimLeft cs).head? = some c → isSpace c = false := by
  intro c hc
  have := List.head?_dropWhile_not isSpace cs
  unfold trimLeft at hc
  rw [hc] at this
  simpa using this

theorem trimRight_last (cs : List Char) :
    ∀ c, (trimRight cs).getLast? = some c → isSpace c = false := by
  intro c hc
  have := List.head?_dropWhile_not isSpace cs.reverse
  unfold trimRight at hc
  rw [List.getLast?_reverse] at hc
  rw [hc] at this
  simpa using this

theorem trimLeft_id {cs : List Char} (h : ∀ c, cs.head? = some c → isSpace c = false) :
    trimLeft cs = cs := by
  cases cs with
  | nil => rfl
  | cons c cs => simp [trimLeft, List.dropWhile_cons, h c rfl]

theorem trimRight_id {cs : List Char} (h : ∀ c, cs.getLast? = some c → isSpace c = false) :
    trimRight cs = cs := by
  unfold trimRight
  have : cs.reverse.dropWhile isSpace = cs.reverse := by
    apply trimLeft_id
    intro c hc
    rw [List.head?_reverse] at hc
    exact h c hc
  rw [this, List.reverse_reverse]

theorem trimRight_head (cs : List Char) (h : ∀ c, cs.head? = some c → isSpace c = false) :
    ∀ c, (trimRight cs).head? = some c → isSpace c = false := by
  intro c hc
  obtain ⟨b, hb⟩ := trimRight_prefix cs
  cases ht : trimRight cs with
  | nil => rw [ht] at hc; simp at hc
  | cons d ds =>
    rw [ht] at hc hb
    simp only [List.head?_cons, Option.some.injEq] at hc
    subst hc
    apply h
    rw [hb]; rfl

theorem trim_idem (cs : List Char) :
    trimRight (trimLeft (trimRight (trimLeft cs))) = trimRight (trimLeft cs) := by
  have h1 : trimLeft (trimRight (trimLeft cs)) = trimRight (trimLeft cs) :=
    trimLeft_id (trimRight_head _ (trimLeft_head cs))
  rw [h1]
  exact trimRight_id (trimRight_last _)


theorem replaceAllAux_zero_cons (c : Char) (cs : List Char) :
    replaceAllAux 0 (c :: cs) =
      match tagMatchLen (c :: cs) with
      | some (n + 1) => replaceAllAux n cs
      | _ => c :: replaceAllAux 0 cs := rfl

theorem tagMatchLen_isTag {l : List Char} {n : Nat} (h : tagMatchLen l = some n) :
    n ≤ l.length ∧ IsTag (l.take n) := by
  cases l with
  | nil => simp [tagMatchLen] at h
  | cons c rest =>
    by_cases hc : c = '<'
    · simp only [tagMatchLen, hc, if_true] at h
      split at h
      · rename_i hk
        obtain ⟨h1, h2⟩ := hk
        simp only [Option.some.injEq] at h
        subst h
        have hlt : spanNotGt rest < rest.length := by
          rcases Nat.lt_or_ge (spanNotGt rest) rest.length with hl | hl
          · exact hl
          · rw [List.getElem?_eq_none hl] at h2; simp at h2
        refine ⟨by simp only [List.length_cons]; omega, [], rest.take (spanNotGt rest),
          Or.inl rfl, ?_, take_spanNotGt rest, ?_⟩
        · intro he
          have := congrArg List.length he
          simp only [List.length_take, List.length_nil] at this
          omega
        · subst hc
          simp only [List.take_succ_cons, List.append_nil, List.singleton_append, List.cons.injEq,
            true_and, List.cons_append]
          rw [List.take_succ, h2]
          rfl
      · simp at h
    · simp [tagMatchLen, hc] at h

theorem spanNotGt_append (body post : List Char) (h : ∀ c ∈ body, c ≠ '>') :
    spanNotGt (body ++ '>' :: post) = body.length := by
  induction body with
  | nil => simp [spanNotGt]
  | cons b body ih =>
    have hb : b ≠ '>' := h b (List.mem_cons_self _ _)
    simp [spanNotGt, hb, ih (fun c hc => h c (List.mem_cons_of_mem _ hc))]

theorem tagMatchLen_run (body post : List Char) (hb : body ≠ []) (hng : ∀ c ∈ body, c ≠ '>') :
    tagMatchLen ('<' :: (body ++ '>' :: post)) = some (body.length + 2) := by
  have hs : spanNotGt (body ++ '>' :: post) = body.length := spanNotGt_append body post hng
  have hl : 1 ≤ body.length := by
    cases body with
    | nil => exact absurd rfl hb
    | cons _ _ => simp
  simp only [tagMatchLen, if_true, hs]
  rw [if_pos]
  refine ⟨hl, ?_⟩
  rw [List.getElem?_append_right (le_refl _)]
  simp

theorem isTag_tagMatchLen {w : List Char} (h : IsTag w) (post : List Char) :
    tagMatchLen (w ++ post) = some w.length := by
  obtain ⟨slash, body, hs, hb, hng, rfl⟩ := h
  rcases hs with rfl | rfl
  · have := tagMatchLen_run body post hb hng
    simpa using this
  · have := tagMatchLen_run ('/' :: body) post (by simp) (by
      intro c hc
      rcases List.mem_cons.1 hc with rfl | hc
      · decide
      · exact hng c hc)
    simpa using this

/-- A tag at the front of the text is deleted and the scan resumes after it. -/
theorem replaceAllAux_tag {w : List Char} (h : IsTag w) (post : List Char) :
    replaceAllAux 0 (w ++ post) = replaceAllAux 0 post := by
  have hm := isTag_tagMatchLen h post
  obtain ⟨slash, body, _, _, _, rfl⟩ := h
  have e : ['<'] ++ slash ++ body ++ ['>'] ++ post = '<' :: ((slash ++ body ++ ['>']) ++ post) := by
    simp
  rw [e] at hm ⊢
  rw [replaceAllAux_zero_cons, hm]
  have e2 : (['<'] ++ slash ++ body ++ ['>']).length = (slash ++ body ++ ['>']).length + 1 := by
    simp
  rw [e2]
  simp only
  rw [replaceAllAux_drop, List.drop_left]

/-- Where no tag starts, the character is copied. -/
theorem replaceAllAux_noTag (c : Char) (cs : List Char)
    (h : ∀ n, ¬ IsTag ((c :: cs).take n)) :
    replaceAllAux 0 (c :: cs) = c :: replaceAllAux 0 cs := by
  rw [replaceAllAux_zero_cons]
  cases hm : tagMatchLen (c :: cs) with
  | none => rfl
  | some n => exact absurd (tagMatchLen_isTag hm).2 (h n)

theorem removeHTMLTags_examples :
    removeHTMLTags "<html:U>a</html:U>" = "a" ∧ removeHTMLTags "a <> b" = "a <> b" ∧
    removeHTMLTags "</>" = "" ∧ removeHTMLTags "<a<b>c" = "c" ∧ removeHTMLTags "1 < 2" = "1 < 2" ∧
    removeHTMLTags "<<a>b></><>x<" = "b><>x<" ∧ TrimSpace "\t a b \n" = "a b" := by
  decide

/-! ## Lemmas on the loops of `parseExcelXML` -/

theorem foldl_cellStep (cells : List Cell) (acc : List String) (e : Bool) :
    cells.foldl cellStep (acc, e) =
      (acc ++ cells.map (fun c => normalize c.Data),
        e && cells.all (fun c => normalize c.Data == "")) := by
  induction cells generalizing acc e with
  | nil => simp
  | cons c cs ih =>
    simp only [List.foldl_cons, cellStep, ih, List.map_cons, List.all_cons, List.append_assoc,
      List.singleton_append]
    by_cases h : normalize c.Data = ""
    · simp [h]
    · simp [h]

theorem any_ne_eq_not_all (l : List String) :
    (l.any fun c => decide (c ≠ "")) = !(l.all fun c => c == "") := by
  induction l with
  | nil => rfl
  | cons a l ih =>
    simp only [List.any_cons, List.all_cons, ih, Bool.not_and]
    by_cases h : a = "" <;> simp [h]

theorem all_normalizeRow (row : Row) :
    (row.Cells.all fun c => normalize c.Data == "") =
      (normalizeRow row).all (fun c => c == "") := by
  unfold normalizeRow
  induction row.Cells with
  | nil => rfl
  | cons c cs ih => simp only [List.all_cons, List.map_cons, ih]

theorem rowStep_eq (result : List (List String)) (row : Row) :
    rowStep result row =
      result ++ (if acceptRow (normalizeRow row) then [normalizeRow row] else []) := by
  unfold rowStep
  simp only [foldl_cellStep, List.nil_append, Bool.true_and]
  have hn : row.Cells.map (fun c => normalize c.Data) = normalizeRow row := rfl
  rw [hn, all_normalizeRow]
  generalize normalizeRow row = r
  unfold acceptRow
  rw [any_ne_eq_not_all]
  by_cases h2 : (r.all fun c => c == "") = true
  · simp [h2]
  · cases r with
    | nil => simp at h2
    | cons a r =>
      by_cases h1 : a = headerLabel
      · simp [h1, h2]
      · simp [h1, h2]

theorem foldl_rowStep (rows : List Row) (result : List (List String)) :
    rows.foldl rowStep result = result ++ (rows.map normalizeRow).filter acceptRow := by
  induction rows generalizing result with
  | nil => simp
  | cons r rs ih =>
    simp only [List.foldl_cons, ih, rowStep_eq, List.map_cons, List.filter_cons]
    by_cases h : acceptRow (normalizeRow r) = true
    · simp [h]
    · simp [h]

theorem foldl_sheetStep (sheets : List Sheet) (result : List (List String)) :
    sheets.foldl sheetStep result =
      result ++ ((sheets.flatMap (fun s => s.Rows)).map normalizeRow).filter acceptRow := by
  induction sheets generalizing result with
  | nil => simp
  | cons s ss ih =>
    simp only [List.foldl_cons, ih, sheetStep, foldl_rowStep, List.flatMap_cons, List.map_append,
      List.filter_append, List.append_assoc]

theorem parseWorkbook_eq (wb : Workbook) : parseWorkbook wb = parseSpec wb := by
  simp [parseWorkbook, parseSpec, allRows, foldl_sheetStep]

theorem parseExcelXML_decoded (env : FileEnv) (filePath : String) (xmlFile : List Nat)
    (wb : Workbook) (hread : env.ReadFile filePath = .ok xmlFile)
    (hdec : env.Unmarshal xmlFile = .ok wb) :
    parseExcelXML env filePath = parseSpec wb := by
  simp [parseExcelXML, hread, hdec, parseWorkbook_eq]

theorem parseExcelXML_fails (env : FileEnv) (filePath : String)
    (h : fileFails env filePath = true) : parseExcelXML env filePath = [] := by
  unfold fileFails at h
  unfold parseExcelXML
  cases hr : env.ReadFile filePath with
  | error e => rfl
  | ok b =>
    rw [hr] at h
    simp only at h ⊢
    cases hd : env.Unmarshal b with
    | error e => rfl
    | ok w => rw [hd] at h; simp at h

theorem foldl_collect (env : FileEnv) (files : List String) (acc : List (List String)) :
    files.foldl (fun allData file =>
        if parseExcelXML env file ≠ [] then allData ++ parseExcelXML env file else allData) acc =
      acc ++ (files.map (parseExcelXML env)).flatten := by
  induction files generalizing acc with
  | nil => simp
  | cons f fs ih =>
    simp only [List.foldl_cons, ih, List.map_cons, List.flatten_cons]
    by_cases h : parseExcelXML env f = []
    · simp [h]
    · simp [h]

theorem collectAllData_eq (env : FileEnv) (files : List String) :
    collectAllData env files = aggregateSpec env files := by
  simpa [collectAllData, aggregateSpec] using foldl_collect env files []

theorem normalize_data (x : String) :
    (normalize x).data = trimRight (trimLeft (replaceAllAux 0 x.data)) := rfl

theorem normalize_blank {x : String} (h : isBlank (normalize x) = true) : normalize x = "" := by
  have hh := trimRight_head _ (trimLeft_head (replaceAllAux 0 x.data))
  rw [← normalize_data] at hh
  unfold isBlank at h
  cases hd : (normalize x).data with
  | nil =>
    apply String.ext
    rw [hd]
  | cons c cs =>
    rw [hd] at h hh
    have := hh c rfl
    simp [this] at h


/-! ## Claims on the cell normaliser -/

/-- C3: cell normalisation is idempotent: normalising a normalised cell
changes nothing. -/
theorem normalize_idempotent (x : String) : normalize (normalize x) = normalize x := by
  apply String.ext
  rw [normalize_data, normalize_data]
  have hs : Settled (trimRight (trimLeft (replaceAllAux 0 x.data))) :=
    settled_trim _ (settled_replaceAllAux 0 x.data)
  rw [replaceAllAux_settled _ hs]
  exact trim_idem _

/-- C4: a normalised cell contains no substring matching the tag pattern and
has neither leading nor trailing white space; the raw cell
`<ns:Font>10.0.0.5</ns:Font>  ` normalises to `10.0.0.5`. -/
theorem normalize_clean :
    (∀ raw : String, TagFree (normalize raw).data ∧ hasLeadingSpace (normalize raw) = false ∧
      hasTrailingSpace (normalize raw) = false) ∧
    normalize "<ns:Font>10.0.0.5</ns:Font>  " = "10.0.0.5" := by
  refine ⟨fun raw => ⟨?_, ?_, ?_⟩, by decide⟩
  · rw [normalize_data]
    exact tagFree_of_settled _ (settled_trim _ (settled_replaceAllAux 0 raw.data))
  · have hh := trimRight_head _ (trimLeft_head (replaceAllAux 0 raw.data))
    rw [← normalize_data] at hh
    unfold hasLeadingSpace
    cases hd : (normalize raw).data.head? with
    | none => rfl
    | some c => exact hh c hd
  · have hh := trimRight_last (trimLeft (replaceAllAux 0 raw.data))
    rw [← normalize_data] at hh
    unfold hasTrailingSpace
    cases hd : (normalize raw).data.getLast? with
    | none => rfl
    | some c => exact hh c hd

/-! ## Claims on the table parser and the row filter -/

/-- C5: for a file that decodes to a workbook, `parseExcelXML` returns exactly
the rows of all worksheets in order, every cell normalised, restricted to the
rows with a non-empty cell whose first cell is not the header label. -/
theorem parseExcelXML_spec (env : FileEnv) (filePath : String) (xmlFile : List Nat)
    (wb : Workbook) (hread : env.ReadFile filePath = .ok xmlFile)
    (hdec : env.Unmarshal xmlFile = .ok wb) :
    parseExcelXML env filePath =
      ((wb.Sheets.flatMap (fun s => s.Rows)).map
        (fun r => r.Cells.map (fun c => normalize c.Data))).filter
        (fun r => r.any (fun c => c ≠ "") && !(r.head? == some "Задача")) :=
  parseExcelXML_decoded env filePath xmlFile wb hread hdec

/-- C5, scenario 2: the rows `[Задача, IP]`, `[Task1, 10.0.0.1]`, `["", "", ""]`
yield `[[Task1, 10.0.0.1]]`. -/
theorem parseExcelXML_spec_witness :
    sampleEnv.ReadFile "a.xml" = .ok [1] ∧ sampleEnv.Unmarshal [1] = .ok sampleWorkbook ∧
    parseExcelXML sampleEnv "a.xml" = [["Task1", "10.0.0.1"]] :=
  ⟨rfl, rfl, (parseExcelXML_spec sampleEnv "a.xml" [1] sampleWorkbook rfl rfl).trans (by decide)⟩

/-- C6: a row of a decoded workbook whose cells are all empty or blank after
normalisation (a row without cells included) is not in the result. -/
theorem empty_row_rejected (env : FileEnv) (filePath : String) (xmlFile : List Nat)
    (wb : Workbook) (hread : env.ReadFile filePath = .ok xmlFile)
    (hdec : env.Unmarshal xmlFile = .ok wb) (row : Row) (_hrow : row ∈ allRows wb)
    (hblank : ∀ c ∈ row.Cells, isBlank (normalize c.Data) = true) :
    normalizeRow row ∉ parseExcelXML env filePath ∧
    (parseExcelXML env filePath).all (fun r => r.any (fun c => !isBlank c)) = true := by
  rw [parseExcelXML_decoded env filePath xmlFile wb hread hdec]
  constructor
  · intro hmem
    have hacc : acceptRow (normalizeRow row) = true := (List.mem_filter.1 hmem).2
    unfold acceptRow at hacc
    simp only [Bool.and_eq_true, List.any_eq_true, decide_eq_true_eq] at hacc
    obtain ⟨⟨x, hx, hne⟩, _⟩ := hacc
    obtain ⟨c, hc, rfl⟩ := List.mem_map.1 hx
    exact hne (normalize_blank (hblank c hc))
  · rw [List.all_eq_true]
    intro r hr
    unfold parseSpec at hr
    obtain ⟨hr1, hacc⟩ := List.mem_filter.1 hr
    unfold acceptRow at hacc
    simp only [Bool.and_eq_true, List.any_eq_true, decide_eq_true_eq] at hacc
    obtain ⟨⟨x, hx, hne⟩, _⟩ := hacc
    simp only [List.any_eq_true, Bool.not_eq_true']
    refine ⟨x, hx, ?_⟩
    obtain ⟨row', _, rfl⟩ := List.mem_map.1 hr1
    obtain ⟨c, _, rfl⟩ := List.mem_map.1 hx
    cases hb : isBlank (normalize c.Data) with
    | false => rfl
    | true => exact absurd (normalize_blank hb) hne

/-- C6 at `b.xml`: the second row has the cells `<b> </b>` and two spaces,
the third row has no cells; neither is in the result. -/
theorem empty_row_rejected_witness :
    (⟨[⟨"<b> </b>"⟩, ⟨"  "⟩]⟩ : Row) ∈ allRows markupWorkbook ∧
    normalizeRow ⟨[⟨"<b> </b>"⟩, ⟨"  "⟩]⟩ = ["", ""] ∧
    normalizeRow ⟨[⟨"<b> </b>"⟩, ⟨"  "⟩]⟩ ∉ parseExcelXML sampleEnv "b.xml" :=
  ⟨by decide, by decide,
    (empty_row_rejected sampleEnv "b.xml" [2] markupWorkbook rfl rfl
      ⟨[⟨"<b> </b>"⟩, ⟨"  "⟩]⟩ (by decide) (by decide)).1⟩

/-- C7: a row of a decoded workbook whose first normalised cell is the header
label is not in the result, whatever its other cells; no row of the result
starts with the header label. -/
theorem header_row_rejected (env : FileEnv) (filePath : String) (xmlFile : List Nat)
    (wb : Workbook) (hread : env.ReadFile filePath = .ok xmlFile)
    (hdec : env.Unmarshal xmlFile = .ok wb) (row : Row) (_hrow : row ∈ allRows wb)
    (hfirst : (normalizeRow row).head? = some "Задача") :
    normalizeRow row ∉ parseExcelXML env filePath ∧
    (parseExcelXML env filePath).all (fun r => !(r.head? == some "Задача")) = true := by
  rw [parseExcelXML_decoded env filePath xmlFile wb hread hdec]
  constructor
  · intro hmem
    have hacc : acceptRow (normalizeRow row) = true := (List.mem_filter.1 hmem).2
    unfold acceptRow at hacc
    simp only [Bool.and_eq_true] at hacc
    have h2 := hacc.2
    rw [hfirst] at h2
    simp [headerLabel] at h2
  · rw [List.all_eq_true]
    intro r hr
    have hacc : acceptRow r = true := (List.mem_filter.1 hr).2
    unfold acceptRow at hacc
    simp only [Bool.and_eq_true] at hacc
    exact hacc.2

/-- C7 at `b.xml`: the first row has the label wrapped in tags and spaces. -/
theorem header_row_rejected_witness :
    (⟨[⟨" <html:B>Задача</html:B> "⟩, ⟨"x"⟩]⟩ : Row) ∈ allRows markupWorkbook ∧
    normalizeRow ⟨[⟨" <html:B>Задача</html:B> "⟩, ⟨"x"⟩]⟩ = ["Задача", "x"] ∧
    normalizeRow ⟨[⟨" <html:B>Задача</html:B> "⟩, ⟨"x"⟩]⟩ ∉ parseExcelXML sampleEnv "b.xml" :=
  ⟨by decide, by decide,
    (header_row_rejected sampleEnv "b.xml" [2] markupWorkbook rfl rfl
      ⟨[⟨" <html:B>Задача</html:B> "⟩, ⟨"x"⟩]⟩ (by decide) (by decide)).1⟩

/-! ## Claims on the aggregation in `main` -/

/-- C8: the aggregated data is the concatenation of the accepted rows of each
file in processing order, its length the sum of the per-file counts; two
files with rows `[r1, r2]` and `[r3]` give `[r1, r2, r3]`. -/
theorem collectAllData_concat :
    (∀ (env : FileEnv) (xmlFiles : List String),
      collectAllData env xmlFiles = (xmlFiles.map (parseExcelXML env)).flatten ∧
      (collectAllData env xmlFiles).length =
        (xmlFiles.map (fun f => (parseExcelXML env f).length)).sum) ∧
    parseExcelXML sampleEnv "b.xml" = [["Task2", "10.0.0.2"], ["Task3"]] ∧
    parseExcelXML sampleEnv "a.xml" = [["Task1", "10.0.0.1"]] ∧
    collectAllData sampleEnv ["b.xml", "a.xml"] =
      [["Task2", "10.0.0.2"], ["Task3"], ["Task1", "10.0.0.1"]] ∧
    (collectAllData sampleEnv ["a.xml", "a.xml"]).length = 2 := by
  refine ⟨fun env xmlFiles => ⟨collectAllData_eq env xmlFiles, ?_⟩, by decide, by decide,
    by decide, by decide⟩
  rw [collectAllData_eq, aggregateSpec, List.length_flatten, List.map_map]
  rfl

/-- C9: a file that cannot be read or decoded yields no rows, and the
aggregated rows are those of the list without the failing files. -/
theorem failure_isolated :
    (∀ (env : FileEnv) (xmlFiles : List String),
      (∀ f, fileFails env f = true → parseExcelXML env f = []) ∧
      collectAllData env xmlFiles =
        collectAllData env (xmlFiles.filter (fun f => !fileFails env f))) ∧
    fileFails sampleEnv "missing.xml" = true ∧ fileFails sampleEnv "broken.xml" = true ∧
    collectAllData sampleEnv ["b.xml", "missing.xml", "broken.xml", "a.xml"] =
      [["Task2", "10.0.0.2"], ["Task3"], ["Task1", "10.0.0.1"]] := by
  refine ⟨fun env xmlFiles => ⟨fun f hf => parseExcelXML_fails env f hf, ?_⟩, by decide,
    by decide, by decide⟩
  rw [collectAllData_eq, collectAllData_eq, aggregateSpec, aggregateSpec]
  induction xmlFiles with
  | nil => rfl
  | cons f fs ih =>
    simp only [List.map_cons, List.flatten_cons, List.filter_cons]
    cases hf : fileFails env f with
    | true => simp [parseExcelXML_fails env f hf, ih]
    | false => simp [ih]

/-! ## The path model on the examples of the Go documentation and tests -/

theorem clean_examples :
    Clean "" = "." ∧ Clean "abc//def//ghi" = "abc/def/ghi" ∧ Clean "abc/./def" = "abc/def" ∧
    Clean "abc/def/../ghi/../jkl" = "abc/jkl" ∧ Clean "abc/def/../.." = "." ∧
    Clean "abc/def/../../.." = ".." ∧ Clean "/abc/def/../../.." = "/" ∧
    Clean "/../abc" = "/abc" ∧ Clean "abc/../../././../def" = "../../def" ∧
    Clean "abc/def/../../../ghi/jkl/../../../mno" = "../../mno" ∧ Clean "//abc//" = "/abc" := by
  decide

theorem join_examples :
    Join [] = "" ∧ Join ["", ""] = "" ∧ Join ["a", "b"] = "a/b" ∧ Join ["a", ""] = "a" ∧
    Join ["", "b"] = "b" ∧ Join ["/", "a"] = "/a" ∧ Join ["/a", "/b"] = "/a/b" ∧
    Join ["a/", "b"] = "a/b" ∧ Join ["a", "../b"] = "b" ∧ Join ["a", "../../b"] = "../b" := by
  decide

theorem dir_examples :
    Dir "" = "." ∧ Dir "/" = "/" ∧ Dir "/foo" = "/" ∧ Dir "x/" = "x" ∧ Dir "abc" = "." ∧
    Dir "abc/def" = "abc" ∧ Dir "a/b/c.x" = "a/b" ∧ Dir "/." = "/" := by
  decide

/-! ## Lemmas on path elements -/

theorem splitSep_ne_nil (cs : List Char) : splitSep cs ≠ [] := by
  cases cs with
  | nil => simp [splitSep]
  | cons c cs =>
    unfold splitSep
    by_cases h : c = '/'
    · simp [h]
    · simp only [h, if_false]
      split <;> simp

theorem splitSep_cons_sep (cs : List Char) : splitSep ('/' :: cs) = [] :: splitSep cs := by
  simp [splitSep]

theorem splitSep_cons_other {c : Char} (h : c ≠ '/') (cs : List Char) :
    ∃ seg segs, splitSep cs = seg :: segs ∧ splitSep (c :: cs) = (c :: seg) :: segs := by
  cases hs : splitSep cs with
  | nil => exact absurd hs (splitSep_ne_nil cs)
  | cons seg segs =>
    refine ⟨seg, segs, rfl, ?_⟩
    rw [splitSep]
    simp [h, hs]

theorem splitSep_noSep (cs : List Char) : ∀ seg ∈ splitSep cs, '/' ∉ seg := by
  induction cs with
  | nil => simp [splitSep]
  | cons c cs ih =>
    by_cases h : c = '/'
    · subst h
      rw [splitSep_cons_sep]
      intro seg hseg
      rcases List.mem_cons.1 hseg with rfl | hseg
      · simp
      · exact ih seg hseg
    · obtain ⟨seg, segs, h1, h2⟩ := splitSep_cons_other h cs
      rw [h2]
      rw [h1] at ih
      intro s hs
      rcases List.mem_cons.1 hs with rfl | hs
      · intro hm
        rcases List.mem_cons.1 hm with e | hm
        · exact h e.symm
        · exact ih seg (List.mem_cons_self _ _) hm
      · exact ih s (List.mem_cons_of_mem _ hs)

theorem splitSep_of_noSep (e : List Char) (h : '/' ∉ e) : splitSep e = [e] := by
  induction e with
  | nil => rfl
  | cons c e ih =>
    have hc : c ≠ '/' := fun hh => h (hh ▸ List.mem_cons_self _ _)
    have he : '/' ∉ e := fun hh => h (List.mem_cons_of_mem _ hh)
    rw [splitSep]
    simp [hc, ih he]

theorem splitSep_append_sep (a t : List Char) :
    splitSep (a ++ '/' :: t) = splitSep a ++ splitSep t := by
  induction a with
  | nil => simp [splitSep]
  | cons c a ih =>
    by_cases h : c = '/'
    · subst h
      simp [splitSep_cons_sep, ih]
    · obtain ⟨seg, segs, h1, h2⟩ := splitSep_cons_other h a
      obtain ⟨seg', segs', h1', h2'⟩ := splitSep_cons_other h (a ++ '/' :: t)
      rw [List.cons_append, h2', h2]
      rw [ih, h1] at h1'
      simp only [List.cons_append, List.cons.injEq] at h1'
      obtain ⟨rfl, rfl⟩ := h1'
      rfl

theorem joinSep_cons_cons (e e' : List Char) (es : List (List Char)) :
    joinSep (e :: e' :: es) = e ++ '/' :: joinSep (e' :: es) := rfl

theorem splitSep_joinSep (es : List (List Char)) (hne : es ≠ [])
    (h : ∀ e ∈ es, '/' ∉ e) : splitSep (joinSep es) = es := by
  induction es with
  | nil => exact absurd rfl hne
  | cons e es ih =>
    cases es with
    | nil => simpa [joinSep] using splitSep_of_noSep e (h e (List.mem_cons_self _ _))
    | cons e' es =>
      rw [joinSep_cons_cons, splitSep_append_sep,
        splitSep_of_noSep e (h e (List.mem_cons_self _ _)),
        ih (by simp) (fun x hx => h x (List.mem_cons_of_mem _ hx))]
      rfl

theorem joinSep_append (a b : List (List Char)) (ha : a ≠ []) (hb : b ≠ []) :
    joinSep (a ++ b) = joinSep a ++ '/' :: joinSep b := by
  induction a with
  | nil => exact absurd rfl ha
  | cons e a ih =>
    cases a with
    | nil =>
      cases b with
      | nil => exact absurd rfl hb
      | cons b0 b => simp [joinSep]
    | cons e' a =>
      rw [List.cons_append, List.cons_append, joinSep_cons_cons, ← List.cons_append,
        ih (by simp), joinSep_cons_cons]
      simp


theorem cleanStep_name (r : Bool) (out : List (List Char)) {e : List Char} (h : IsName e) :
    cleanStep r out e = out ++ [e] := by
  obtain ⟨h1, _, h3, h4⟩ := h
  simp [cleanStep, h1, h3, h4]

theorem foldl_cleanStep_names (r : Bool) (names acc : List (List Char))
    (h : ∀ e ∈ names, IsName e) : names.foldl (cleanStep r) acc = acc ++ names := by
  induction names generalizing acc with
  | nil => simp
  | cons e es ih =>
    rw [List.foldl_cons, cleanStep_name r acc (h e (List.mem_cons_self _ _)),
      ih _ (fun x hx => h x (List.mem_cons_of_mem _ hx))]
    simp

theorem cleanStep_true_names (out : List (List Char)) (e : List Char) (he : '/' ∉ e)
    (h : ∀ x ∈ out, IsName x) : ∀ x ∈ cleanStep true out e, IsName x := by
  unfold cleanStep
  by_cases h1 : e = [] ∨ e = ['.']
  · simpa [h1] using h
  · rw [if_neg h1]
    by_cases h2 : e = ['.', '.']
    · rw [if_pos h2]
      by_cases h3 : canBacktrack out = true
      · rw [if_pos h3]
        intro x hx
        exact h x (List.mem_of_mem_dropLast hx)
      · rw [if_neg h3]
        simpa using h
    · rw [if_neg h2]
      intro x hx
      rcases List.mem_append.1 hx with hx | hx
      · exact h x hx
      · simp only [List.mem_singleton] at hx
        subst hx
        exact ⟨fun hh => h1 (Or.inl hh), he, fun hh => h1 (Or.inr hh), h2⟩

theorem foldl_cleanStep_true_names (segs out : List (List Char)) (hs : ∀ e ∈ segs, '/' ∉ e)
    (h : ∀ x ∈ out, IsName x) : ∀ x ∈ segs.foldl (cleanStep true) out, IsName x := by
  induction segs generalizing out with
  | nil => simpa using h
  | cons e es ih =>
    rw [List.foldl_cons]
    exact ih _ (fun x hx => hs x (List.mem_cons_of_mem _ hx))
      (cleanStep_true_names out e (hs e (List.mem_cons_self _ _)) h)

theorem rootedOut_names (path : List Char) : ∀ x ∈ rootedOut path, IsName x :=
  foldl_cleanStep_true_names _ _ (splitSep_noSep path) (by simp)

theorem cleanChars_rooted {path : List Char} (h : path.head? = some '/') :
    cleanChars path = '/' :: joinSep (rootedOut path) := by
  unfold cleanChars
  have hne : path ≠ [] := by
    intro he; rw [he] at h; simp at h
  simp [hne, h, rootedOut]

theorem joinSep_head_of_names {out : List (List Char)} (h : ∀ x ∈ out, IsName x) :
    (joinSep out).head? ≠ some '/' := by
  cases out with
  | nil => simp [joinSep]
  | cons e es =>
    obtain ⟨h1, h2, _, _⟩ := h e (List.mem_cons_self _ _)
    cases e with
    | nil => exact absurd rfl h1
    | cons c e =>
      have hc : c ≠ '/' := fun hh => h2 (hh ▸ List.mem_cons_self _ _)
      cases es with
      | nil => simpa [joinSep] using hc
      | cons e' es => simpa [joinSep] using hc

theorem joinSep_eq_nil_of_names {out : List (List Char)} (h : ∀ x ∈ out, IsName x)
    (he : joinSep out = []) : out = [] := by
  cases out with
  | nil => rfl
  | cons e es =>
    obtain ⟨h1, _, _, _⟩ := h e (List.mem_cons_self _ _)
    cases es with
    | nil => simp [joinSep] at he; exact absurd he h1
    | cons e' es => simp [joinSep] at he

/-- The path test on cleaned rooted paths, element by element. -/
theorem prefix_elements {outD outF : List (List Char)} (hD : ∀ x ∈ outD, IsName x)
    (hF : ∀ x ∈ outF, IsName x)
    (hp : ('/' :: joinSep outD) ++ ['/'] <+: '/' :: joinSep outF) :
    outD ≠ [] ∧ ∃ rest, rest ≠ [] ∧ outF = outD ++ rest := by
  obtain ⟨t, ht⟩ := hp
  simp only [List.cons_append, List.cons.injEq, true_and, List.append_assoc,
    List.singleton_append, List.nil_append] at ht
  have hFne : outF ≠ [] := by
    intro he
    rw [he] at ht
    simp [joinSep] at ht
  have hsF : splitSep (joinSep outF) = outF := splitSep_joinSep outF hFne (fun e he => (hF e he).2.1)
  by_cases hDne : outD = []
  · exfalso
    rw [hDne] at ht
    simp only [joinSep, List.nil_append] at ht
    apply joinSep_head_of_names hF
    rw [← ht]; rfl
  · refine ⟨hDne, splitSep t, splitSep_ne_nil t, ?_⟩
    rw [← hsF, ← ht, splitSep_append_sep,
      splitSep_joinSep outD hDne (fun e he => (hD e he).2.1)]

theorem elements_rooted {out : List (List Char)} (h : ∀ x ∈ out, IsName x) :
    elements ⟨'/' :: joinSep out⟩ = out := by
  unfold elements
  simp only [splitSep_cons_sep]
  by_cases hne : out = []
  · subst hne; simp [joinSep, splitSep]
  · rw [splitSep_joinSep out hne (fun e he => (h e he).2.1)]
    have h0 : decide ((([] : List Char) ≠ []) ∧ ([] : List Char) ≠ ['.']) = false := by decide
    rw [List.filter_cons, h0]
    simp only [Bool.false_eq_true, if_false]
    rw [List.filter_eq_self]
    intro e he
    exact decide_eq_true ⟨(h e he).1, (h e he).2.2.1⟩


theorem rootedOut_append_sep (a t : List Char) :
    rootedOut (a ++ '/' :: t) = (splitSep t).foldl (cleanStep true) (rootedOut a) := by
  simp [rootedOut, splitSep_append_sep, List.foldl_append]

theorem rootedOut_joinSep {ns : List (List Char)} (h : ∀ x ∈ ns, IsName x) :
    rootedOut ('/' :: joinSep ns) = ns := by
  have e : ('/' :: joinSep ns) = [] ++ '/' :: joinSep ns := rfl
  rw [e, rootedOut_append_sep]
  have h0 : rootedOut [] = [] := by
    simp [rootedOut, splitSep, cleanStep]
  rw [h0]
  by_cases hne : ns = []
  · subst hne
    simp [joinSep, splitSep, cleanStep]
  · rw [splitSep_joinSep ns hne (fun e he => (h e he).2.1), foldl_cleanStep_names true ns [] h]
    simp

theorem rootedOut_joinSep_sep {ns : List (List Char)} (h : ∀ x ∈ ns, IsName x) :
    rootedOut (('/' :: joinSep ns) ++ ['/']) = ns := by
  have e : ('/' :: joinSep ns) ++ ['/'] = ('/' :: joinSep ns) ++ '/' :: [] := rfl
  rw [e, rootedOut_append_sep, rootedOut_joinSep h]
  simp [splitSep, cleanStep]

theorem clean_data (s : String) : (Clean s).data = cleanChars s.data := rfl

theorem clean_rooted_data {dest : String} (h : dest.data.head? = some '/') :
    (Clean dest).data = '/' :: joinSep (rootedOut dest.data) := by
  rw [clean_data, cleanChars_rooted h]

theorem entryPath_rooted_data {dest : String} (h : dest.data.head? = some '/') (name : String) :
    (entryPath dest name).data =
      '/' :: joinSep (rootedOut (dest.data ++ '/' :: cleanChars name.data)) := by
  have hne : dest ≠ "" := by
    intro he; rw [he] at h; simp at h
  have hj : Join [dest, Clean name] = ⟨cleanChars (dest.data ++ '/' :: cleanChars name.data)⟩ := by
    simp [Join, List.dropWhile_cons, hne, joinSep, clean_data]
  unfold entryPath
  rw [hj]
  apply cleanChars_rooted
  cases hd : dest.data with
  | nil => rw [hd] at h; simp at h
  | cons c cs => rw [hd] at h; simpa using h

theorem pathAllowed_iff (dest p : String) :
    pathAllowed dest p = true ↔ (Clean dest).data ++ ['/'] <+: p.data := by
  unfold pathAllowed HasPrefix
  rw [List.isPrefixOf_iff_prefix, String.data_append]

theorem cleanRooted_entryPath {dest : String} (h : dest.data.head? = some '/') (name : String) :
    CleanRooted (entryPath dest name) :=
  ⟨_, rootedOut_names _, entryPath_rooted_data h name⟩

theorem elements_clean_rooted {dest : String} (h : dest.data.head? = some '/') :
    elements (Clean dest) = rootedOut dest.data := by
  have : Clean dest = ⟨'/' :: joinSep (rootedOut dest.data)⟩ :=
    String.ext (clean_rooted_data h)
  rw [this]
  exact elements_rooted (rootedOut_names _)

theorem allowed_split {dest p : String} (h : dest.data.head? = some '/')
    {out : List (List Char)} (hn : ∀ x ∈ out, IsName x) (hp : p.data = '/' :: joinSep out)
    (ha : pathAllowed dest p = true) :
    rootedOut dest.data ≠ [] ∧ ∃ rest, rest ≠ [] ∧ out = rootedOut dest.data ++ rest := by
  rw [pathAllowed_iff, clean_rooted_data h, hp] at ha
  exact prefix_elements (rootedOut_names _) hn ha

theorem clean_cleanRooted {p : String} {out : List (List Char)} (hn : ∀ x ∈ out, IsName x)
    (hp : p.data = '/' :: joinSep out) : Clean p = p := by
  apply String.ext
  rw [clean_data, hp, cleanChars_rooted (by simp), rootedOut_joinSep hn]

theorem allowed_inside {dest p : String} (h : dest.data.head? = some '/')
    (hc : CleanRooted p) (ha : pathAllowed dest p = true) : StrictlyInside dest p := by
  obtain ⟨out, hn, hp⟩ := hc
  obtain ⟨_, rest, hrest, hout⟩ := allowed_split h hn hp ha
  have hel : elements (Clean p) = out := by
    rw [clean_cleanRooted hn hp]
    have : p = ⟨'/' :: joinSep out⟩ := String.ext hp
    rw [this]
    exact elements_rooted hn
  refine ⟨rest, hrest, ?_, ?_⟩
  · rw [hel, elements_clean_rooted h, hout]
  · intro hm
    have hmem : ['.', '.'] ∈ out := by
      rw [hout]; exact List.mem_append_right _ hm
    exact (hn _ hmem).2.2.2 rfl

theorem canBacktrack_of_names {out : List (List Char)} (hn : ∀ x ∈ out, IsName x)
    (hne : out ≠ []) : canBacktrack out = true := by
  unfold canBacktrack
  cases hl : out.getLast? with
  | none => exact absurd (List.getLast?_eq_none_iff.1 hl) hne
  | some top =>
    have hm : top ∈ out := List.mem_of_getLast?_eq_some hl
    simpa using (hn top hm).2.2.2

theorem escape_rejected {dest : String} (h : dest.data.head? = some '/') :
    pathAllowed dest (entryPath dest "../escape.xml") = false := by
  cases ha : pathAllowed dest (entryPath dest "../escape.xml") with
  | false => rfl
  | true =>
    exfalso
    obtain ⟨hne, rest, hrest, hout⟩ :=
      allowed_split h (rootedOut_names _) (entryPath_rooted_data h "../escape.xml") ha
    have hc : cleanChars ("../escape.xml" : String).data = ("../escape.xml" : String).data := by
      decide
    have hs : splitSep ("../escape.xml" : String).data =
        [['.', '.'], ("escape.xml" : String).data] := by decide
    rw [hc, rootedOut_append_sep, hs] at hout
    simp only [List.foldl_cons, List.foldl_nil] at hout
    have h1 : cleanStep true (rootedOut dest.data) ['.', '.'] = (rootedOut dest.data).dropLast := by
      simp [cleanStep, canBacktrack_of_names (rootedOut_names _) hne]
    rw [h1] at hout
    have h2 : cleanStep true (rootedOut dest.data).dropLast ("escape.xml" : String).data =
        (rootedOut dest.data).dropLast ++ [("escape.xml" : String).data] :=
      cleanStep_name _ _ ⟨by decide, by decide, by decide, by decide⟩
    rw [h2] at hout
    have hl := congrArg List.length hout
    simp only [List.length_append, List.length_dropLast, List.length_singleton] at hl
    have h3 : 0 < (rootedOut dest.data).length := List.length_pos.2 hne
    have h4 : 0 < rest.length := List.length_pos.2 hrest
    omega


theorem dropWhile_append_stop {α : Type} (p : α → Bool) (xs : List α) (y : α) (ys : List α)
    (hx : ∀ x ∈ xs, p x = true) (hy : p y = false) :
    (xs ++ y :: ys).dropWhile p = y :: ys := by
  induction xs with
  | nil => simp [List.dropWhile_cons, hy]
  | cons x xs ih =>
    simp only [List.cons_append, List.dropWhile_cons, hx x (List.mem_cons_self _ _), if_true]
    exact ih (fun z hz => hx z (List.mem_cons_of_mem _ hz))

theorem dirPart_append (a l : List Char) (hl : '/' ∉ l) :
    ((a ++ '/' :: l).reverse.dropWhile (fun c => c ≠ '/')).reverse = a ++ ['/'] := by
  have e : (a ++ '/' :: l).reverse = l.reverse ++ '/' :: a.reverse := by simp
  rw [e, dropWhile_append_stop]
  · simp
  · intro x hx
    have : x ≠ '/' := fun hh => hl (hh ▸ List.mem_reverse.1 hx)
    simpa using this
  · simp

theorem dir_data_concat {p : String} (init : List (List Char)) (last : List Char)
    (hn : ∀ x ∈ init ++ [last], IsName x) (hp : p.data = '/' :: joinSep (init ++ [last])) :
    (Dir p).data = '/' :: joinSep init := by
  have hlast : '/' ∉ last := (hn last (by simp)).2.1
  have hd : (Dir p).data =
      cleanChars (p.data.reverse.dropWhile (fun c => c ≠ '/')).reverse := rfl
  rw [hd, hp]
  by_cases hi : init = []
  · subst hi
    have e : '/' :: joinSep ([] ++ [last]) = [] ++ '/' :: last := by simp [joinSep]
    rw [e, dirPart_append _ _ hlast]
    decide
  · have e : '/' :: joinSep (init ++ [last]) = ('/' :: joinSep init) ++ '/' :: last := by
      rw [joinSep_append _ _ hi (by simp)]
      simp [joinSep]
    rw [e, dirPart_append _ _ hlast]
    have hn' : ∀ x ∈ init, IsName x := fun x hx => hn x (List.mem_append_left _ hx)
    rw [cleanChars_rooted (by simp), rootedOut_joinSep_sep hn']

theorem dir_data {p : String} {out : List (List Char)} (hn : ∀ x ∈ out, IsName x)
    (hne : out ≠ []) (hp : p.data = '/' :: joinSep out) :
    (Dir p).data = '/' :: joinSep out.dropLast := by
  have hsplit : out = out.dropLast ++ [out.getLast hne] := (List.dropLast_append_getLast hne).symm
  generalize out.getLast hne = last at hsplit
  generalize out.dropLast = init at hsplit ⊢
  subst hsplit
  exact dir_data_concat init last hn hp

/-- The parent directory of an allowed entry path is the cleaned root or an
allowed path inside it. -/
theorem dir_allowed {dest p : String} (h : dest.data.head? = some '/') (hc : CleanRooted p)
    (ha : pathAllowed dest p = true) :
    Dir p = Clean dest ∨ (pathAllowed dest (Dir p) = true ∧ StrictlyInside dest (Dir p)) := by
  obtain ⟨out, hn, hp⟩ := hc
  obtain ⟨hDne, rest, hrest, hout⟩ := allowed_split h hn hp ha
  have hne : out ≠ [] := by
    rw [hout]; simp [hDne]
  have hdir := dir_data hn hne hp
  have hdrop : out.dropLast = rootedOut dest.data ++ rest.dropLast := by
    rw [hout, List.dropLast_append_of_ne_nil _ hrest]
  by_cases hr : rest.dropLast = []
  · left
    apply String.ext
    rw [hdir, hdrop, hr, List.append_nil, clean_rooted_data h]
  · right
    have hn' : ∀ x ∈ out.dropLast, IsName x := fun x hx => hn x (List.mem_of_mem_dropLast hx)
    have hal : pathAllowed dest (Dir p) = true := by
      rw [pathAllowed_iff, clean_rooted_data h, hdir, hdrop, joinSep_append _ _ hDne hr]
      exact ⟨joinSep rest.dropLast, by simp⟩
    exact ⟨hal, allowed_inside h ⟨_, hn', hdir⟩ hal⟩

/-! ## Lemmas on the loops of `extractZip` and `unzipArchives` -/

theorem runOps_trace (w : World) (ops tr : List FsOp) :
    ∃ done, (runOps w tr ops).1 = tr ++ done ∧ (∀ op ∈ done, op ∈ ops) ∧
      (ops ≠ [] → done ≠ []) := by
  induction ops generalizing tr with
  | nil => exact ⟨[], by simp [runOps], by simp, by simp⟩
  | cons op ops ih =>
    unfold runOps
    cases hf : w.fail tr op with
    | some e => exact ⟨[op], rfl, by simp, by simp⟩
    | none =>
      obtain ⟨done, h1, h2, _⟩ := ih (tr ++ [op])
      refine ⟨op :: done, ?_, ?_, by simp⟩
      · simp only [h1]; simp
      · intro x hx
        rcases List.mem_cons.1 hx with rfl | hx
        · exact List.mem_cons_self _ _
        · exact List.mem_cons_of_mem _ (h2 x hx)

theorem entryOps_ne_nil (f : ZipFile) (fpath : String) : entryOps f fpath ≠ [] := by
  unfold entryOps
  split <;> simp

theorem extractEntries_trace (w : World) (dest : String) (fs : List ZipFile) (tr : List FsOp) :
    ∃ ops, (extractEntries w dest fs tr).1 = tr ++ ops ∧
      ∀ op ∈ ops, ∃ f ∈ fs, pathAllowed dest (entryPath dest f.Name) = true ∧
        op ∈ entryOps f (entryPath dest f.Name) := by
  induction fs generalizing tr with
  | nil => exact ⟨[], by simp [extractEntries], by simp⟩
  | cons f fs ih =>
    unfold extractEntries
    cases ha : pathAllowed dest (entryPath dest f.Name) with
    | false => exact ⟨[], by simp, by simp⟩
    | true =>
      simp only [Bool.not_true, Bool.false_eq_true, if_false]
      obtain ⟨done, h1, h2, _⟩ := runOps_trace w (entryOps f (entryPath dest f.Name)) tr
      have hdone : ∀ op ∈ done, ∃ g ∈ f :: fs, pathAllowed dest (entryPath dest g.Name) = true ∧
          op ∈ entryOps g (entryPath dest g.Name) :=
        fun op hop => ⟨f, List.mem_cons_self _ _, ha, h2 op hop⟩
      cases hr : runOps w tr (entryOps f (entryPath dest f.Name)) with
      | mk tr' err =>
        rw [hr] at h1
        simp only at h1
        subst h1
        cases err with
        | some e => exact ⟨done, rfl, hdone⟩
        | none =>
          obtain ⟨ops, h3, h4⟩ := ih (tr ++ done)
          refine ⟨done ++ ops, ?_, ?_⟩
          · simp only [h3, List.append_assoc]
          · intro op hop
            rcases List.mem_append.1 hop with hop | hop
            · exact hdone op hop
            · obtain ⟨g, hg, hh⟩ := h4 op hop
              exact ⟨g, List.mem_cons_of_mem _ hg, hh⟩

theorem extractEntries_cons (w : World) (dest : String) (f : ZipFile) (fs : List ZipFile)
    (tr : List FsOp) :
    extractEntries w dest (f :: fs) tr =
      if !pathAllowed dest (entryPath dest f.Name) then
        (tr, some (pathError (entryPath dest f.Name)))
      else
        match runOps w tr (entryOps f (entryPath dest f.Name)) with
        | (tr', some e) => (tr', some e)
        | (tr', none) => extractEntries w dest fs tr' := rfl

theorem extractEntries_append (w : World) (dest : String) (pre rest : List ZipFile)
    (tr : List FsOp) :
    extractEntries w dest (pre ++ rest) tr =
      match extractEntries w dest pre tr with
      | (tr1, none) => extractEntries w dest rest tr1
      | (tr1, some e) => (tr1, some e) := by
  induction pre generalizing tr with
  | nil => simp [extractEntries]
  | cons f fs ih =>
    rw [List.cons_append, extractEntries_cons, extractEntries_cons]
    cases ha : pathAllowed dest (entryPath dest f.Name) with
    | false => simp
    | true =>
      simp only [Bool.not_true, Bool.false_eq_true, if_false]
      cases hr : runOps w tr (entryOps f (entryPath dest f.Name)) with
      | mk tr' err =>
        cases err with
        | some e => simp
        | none => simpa using ih tr'

theorem extractEntries_rejected (w : World) (dest : String) (f : ZipFile) (fs : List ZipFile)
    (tr : List FsOp) (h : pathAllowed dest (entryPath dest f.Name) = false) :
    extractEntries w dest (f :: fs) tr = (tr, some (pathError (entryPath dest f.Name))) := by
  simp [extractEntries, h]

theorem extractEntries_allowed_trace (w : World) (dest : String) (f : ZipFile)
    (fs : List ZipFile) (tr : List FsOp) (h : pathAllowed dest (entryPath dest f.Name) = true) :
    (extractEntries w dest (f :: fs) tr).1 ≠ tr := by
  unfold extractEntries
  simp only [h, Bool.not_true, Bool.false_eq_true, if_false]
  obtain ⟨done, h1, _, h3⟩ := runOps_trace w (entryOps f (entryPath dest f.Name)) tr
  have hdone : done ≠ [] := h3 (entryOps_ne_nil _ _)
  cases hr : runOps w tr (entryOps f (entryPath dest f.Name)) with
  | mk tr' err =>
    rw [hr] at h1
    simp only at h1
    have hlen : tr.length < tr'.length := by
      rw [h1, List.length_append]
      have := List.length_pos.2 hdone
      omega
    cases err with
    | some e =>
      simp only
      intro he; rw [he] at hlen; omega
    | none =>
      simp only
      obtain ⟨ops, h4, _⟩ := extractEntries_trace w dest fs tr'
      intro he
      rw [h4] at he
      have := congrArg List.length he
      simp only [List.length_append] at this
      omega

theorem extractZip_opened (w : World) (src dest : String) (tr : List FsOp)
    (files : List ZipFile) (hopen : w.openReader tr src = .ok files) :
    extractZip w src dest tr = extractEntries w dest files (tr ++ [FsOp.openReader src]) := by
  simp [extractZip, hopen]


theorem attempted_append (a b : List FsOp) : attempted (a ++ b) = attempted a ++ attempted b := by
  simp [attempted, List.filterMap_append]

theorem attempted_entryOps {ops : List FsOp}
    (h : ∀ op ∈ ops, ∃ (f : ZipFile) (fpath : String), op ∈ entryOps f fpath) :
    attempted ops = [] := by
  unfold attempted
  rw [List.filterMap_eq_nil_iff]
  intro op hop
  obtain ⟨f, fpath, hm⟩ := h op hop
  unfold entryOps at hm
  split at hm
  · simp only [List.mem_singleton] at hm
    subst hm; rfl
  · simp only [List.mem_cons, List.mem_singleton, List.not_mem_nil, or_false] at hm
    rcases hm with rfl | rfl | rfl | rfl <;> rfl

theorem extractZip_trace (w : World) (src dest : String) (tr : List FsOp) :
    ∃ ops, (extractZip w src dest tr).1 = tr ++ FsOp.openReader src :: ops ∧
      attempted ops = [] := by
  unfold extractZip
  cases ho : w.openReader tr src with
  | error e => exact ⟨[], by simp, rfl⟩
  | ok files =>
    obtain ⟨ops, h1, h2⟩ := extractEntries_trace w dest files (tr ++ [FsOp.openReader src])
    refine ⟨ops, by simp [h1], attempted_entryOps ?_⟩
    intro op hop
    obtain ⟨f, _, _, hm⟩ := h2 op hop
    exact ⟨f, _, hm⟩

theorem unzipLoop_cons (w : World) (ToLower : String → String) (dir : String) (file : DirEntry)
    (files : List DirEntry) (tr : List FsOp) (processed : List String) :
    unzipLoop w ToLower dir (file :: files) tr processed =
      if file.IsDir || !HasSuffix (ToLower file.Name) ".zip" then
        unzipLoop w ToLower dir files tr processed
      else
        match extractZip w (Join [dir, file.Name]) dir tr with
        | (tr', some e) =>
          ⟨tr', processed, some ("ошибка распаковки " ++ file.Name ++ ": " ++ e)⟩
        | (tr', none) =>
          unzipLoop w ToLower dir files tr' (processed ++ [Join [dir, file.Name]]) := rfl

theorem unzipLoop_spec (w : World) (ToLower : String → String) (dir : String)
    (files : List DirEntry) (tr : List FsOp) (processed : List String) :
    ∃ ops, (unzipLoop w ToLower dir files tr processed).trace = tr ++ ops ∧
      (((unzipLoop w ToLower dir files tr processed).err = none ∧
        (unzipLoop w ToLower dir files tr processed).processed =
          processed ++ archivePaths ToLower dir files ∧
        attempted ops = archivePaths ToLower dir files) ∨
      (∃ (k : Nat) (e : String) (trk : List FsOp),
        k < (archivePaths ToLower dir files).length ∧
        (unzipLoop w ToLower dir files tr processed).processed =
          processed ++ (archivePaths ToLower dir files).take k ∧
        attempted ops = (archivePaths ToLower dir files).take (k + 1) ∧
        (unzipLoop w ToLower dir files tr processed).err =
          some ("ошибка распаковки " ++ (archiveNames ToLower files).getD k "" ++ ": " ++ e) ∧
        extractZip w ((archivePaths ToLower dir files).getD k "") dir trk =
          ((unzipLoop w ToLower dir files tr processed).trace, some e))) := by
  induction files generalizing tr processed with
  | nil =>
    exact ⟨[], by simp [unzipLoop], Or.inl ⟨rfl, by simp [unzipLoop, archivePaths], rfl⟩⟩
  | cons file files ih =>
    rw [unzipLoop_cons]
    by_cases hskip : (file.IsDir || !HasSuffix (ToLower file.Name) ".zip") = true
    · have hna : isArchive ToLower file = false := by
        unfold isArchive
        cases hd : file.IsDir <;> cases hz : HasSuffix (ToLower file.Name) ".zip" <;>
          simp [hd, hz] at hskip ⊢
      have hp : archivePaths ToLower dir (file :: files) = archivePaths ToLower dir files := by
        simp [archivePaths, List.filter_cons, hna]
      have hn : archiveNames ToLower (file :: files) = archiveNames ToLower files := by
        simp [archiveNames, List.filter_cons, hna]
      rw [if_pos hskip, hp, hn]
      exact ih tr processed
    · have hia : isArchive ToLower file = true := by
        unfold isArchive
        cases hd : file.IsDir <;> cases hz : HasSuffix (ToLower file.Name) ".zip" <;>
          simp [hd, hz] at hskip ⊢
      have hp : archivePaths ToLower dir (file :: files) =
          Join [dir, file.Name] :: archivePaths ToLower dir files := by
        simp [archivePaths, List.filter_cons, hia]
      have hn : archiveNames ToLower (file :: files) =
          file.Name :: archiveNames ToLower files := by
        simp [archiveNames, List.filter_cons, hia]
      rw [if_neg hskip, hp, hn]
      obtain ⟨ops1, h1, h2⟩ := extractZip_trace w (Join [dir, file.Name]) dir tr
      cases hr : extractZip w (Join [dir, file.Name]) dir tr with
      | mk tr' err =>
        rw [hr] at h1
        simp only at h1
        have hatt : attempted (FsOp.openReader (Join [dir, file.Name]) :: ops1) =
            [Join [dir, file.Name]] := by
          have : attempted (FsOp.openReader (Join [dir, file.Name]) :: ops1) =
              Join [dir, file.Name] :: attempted ops1 := by
            simp [attempted, List.filterMap_cons]
          rw [this, h2]
        cases err with
        | some e =>
          refine ⟨FsOp.openReader (Join [dir, file.Name]) :: ops1, h1, Or.inr ⟨0, e, tr, ?_⟩⟩
          simp only [List.length_cons, Nat.zero_lt_succ, List.take_zero, List.append_nil,
            List.take_succ_cons, List.getD_cons_zero, true_and]
          exact ⟨hatt, hr⟩
        | none =>
          simp only
          obtain ⟨ops2, h3, h4⟩ := ih tr' (processed ++ [Join [dir, file.Name]])
          refine ⟨FsOp.openReader (Join [dir, file.Name]) :: ops1 ++ ops2, ?_, ?_⟩
          · rw [h3, h1]; simp
          · have hatt2 : attempted (FsOp.openReader (Join [dir, file.Name]) :: ops1 ++ ops2) =
                Join [dir, file.Name] :: attempted ops2 := by
              rw [attempted_append, hatt]; rfl
            rcases h4 with ⟨e1, e2, e3⟩ | ⟨k, e, trk, e1, e2, e3, e4, e5⟩
            · left
              refine ⟨e1, ?_, ?_⟩
              · rw [e2]; simp
              · rw [hatt2, e3]
            · right
              refine ⟨k + 1, e, trk, ?_, ?_, ?_, ?_, ?_⟩
              · simpa using e1
              · rw [e2]; simp
              · rw [hatt2, e3]; rfl
              · rw [e4]; rfl
              · rw [← e5]; rfl


theorem entryOps_target {f : ZipFile} {fpath : String} {op : FsOp} {p : String}
    (hm : op ∈ entryOps f fpath) (ht : op.target = some p) :
    p = fpath ∨ (op = FsOp.mkdirAll p ∧ p = Dir fpath) := by
  unfold entryOps at hm
  split at hm
  · simp only [List.mem_singleton] at hm
    subst hm
    simp only [FsOp.target, Option.some.injEq] at ht
    exact Or.inl ht.symm
  · simp only [List.mem_cons, List.mem_singleton, List.not_mem_nil, or_false] at hm
    rcases hm with rfl | rfl | rfl | rfl
    · simp only [FsOp.target, Option.some.injEq] at ht
      subst ht
      exact Or.inr ⟨rfl, rfl⟩
    · simp only [FsOp.target, Option.some.injEq] at ht
      exact Or.inl ht.symm
    · simp [FsOp.target] at ht
    · simp only [FsOp.target, Option.some.injEq] at ht
      exact Or.inl ht.symm

theorem root_itself_rejected (dest : String) : pathAllowed dest (Clean dest) = false := by
  cases ha : pathAllowed dest (Clean dest) with
  | false => rfl
  | true =>
    rw [pathAllowed_iff] at ha
    have := ha.length_le
    simp at this

theorem sibling_rejected (dest s : String) (hs : s.data.head? ≠ some '/') :
    pathAllowed dest (Clean dest ++ s) = false := by
  cases ha : pathAllowed dest (Clean dest ++ s) with
  | false => rfl
  | true =>
    rw [pathAllowed_iff, String.data_append, List.prefix_append_right_inj] at ha
    obtain ⟨t, ht⟩ := ha
    rw [← ht] at hs
    simp at hs

theorem runOps_ok (w : World) (ops tr : List FsOp)
    (hok : ∀ (tr' : List FsOp) (op : FsOp), op ∈ ops → w.fail tr' op = none) :
    runOps w tr ops = (tr ++ ops, none) := by
  induction ops generalizing tr with
  | nil => simp [runOps]
  | cons op ops ih =>
    unfold runOps
    rw [hok tr op (List.mem_cons_self _ _)]
    simp only
    rw [ih (tr ++ [op]) (fun tr' x hx => hok tr' x (List.mem_cons_of_mem _ hx))]
    simp

theorem runOps_first (w : World) (op : FsOp) (ops tr : List FsOp) :
    ∃ later, (runOps w tr (op :: ops)).1 = tr ++ op :: later := by
  unfold runOps
  cases hf : w.fail tr op with
  | some e => exact ⟨[], rfl⟩
  | none =>
    obtain ⟨done, h1, _, _⟩ := runOps_trace w ops (tr ++ [op])
    exact ⟨done, by simp [h1]⟩

theorem extractEntries_first (w : World) (dest : String) (f : ZipFile) (fs : List ZipFile)
    (tr : List FsOp) (op : FsOp) (ops : List FsOp)
    (ha : pathAllowed dest (entryPath dest f.Name) = true)
    (hops : entryOps f (entryPath dest f.Name) = op :: ops) :
    ∃ later, (extractEntries w dest (f :: fs) tr).1 = tr ++ op :: later := by
  rw [extractEntries_cons]
  simp only [ha, Bool.not_true, Bool.false_eq_true, if_false, hops]
  obtain ⟨later, h1⟩ := runOps_first w op ops tr
  cases hr : runOps w tr (op :: ops) with
  | mk tr' err =>
    rw [hr] at h1
    simp only at h1
    subst h1
    cases err with
    | some e => exact ⟨later, rfl⟩
    | none =>
      obtain ⟨more, h3, _⟩ := extractEntries_trace w dest fs (tr ++ op :: later)
      exact ⟨later ++ more, by simp [h3]⟩

theorem extractEntries_ok (w : World) (dest : String) (f : ZipFile) (fs : List ZipFile)
    (tr : List FsOp) (ha : pathAllowed dest (entryPath dest f.Name) = true)
    (hok : ∀ (tr' : List FsOp) (op : FsOp),
      op ∈ entryOps f (entryPath dest f.Name) → w.fail tr' op = none) :
    extractEntries w dest (f :: fs) tr =
      extractEntries w dest fs (tr ++ entryOps f (entryPath dest f.Name)) := by
  rw [extractEntries_cons]
  simp only [ha, Bool.not_true, Bool.false_eq_true, if_false]
  rw [runOps_ok w _ tr hok]

theorem unzipLoop_allSucceed (w : World) (ToLower : String → String) (dir : String)
    (files : List DirEntry) (tr tr' : List FsOp) (processed : List String)
    (h : AllSucceed w dir (archivePaths ToLower dir files) tr tr') :
    unzipLoop w ToLower dir files tr processed =
      ⟨tr', processed ++ archivePaths ToLower dir files, none⟩ := by
  induction files generalizing tr processed with
  | nil =>
    simp only [archivePaths, List.filter_nil, List.map_nil, AllSucceed] at h
    subst h
    simp [unzipLoop, archivePaths]
  | cons file files ih =>
    rw [unzipLoop_cons]
    by_cases hskip : (file.IsDir || !HasSuffix (ToLower file.Name) ".zip") = true
    · have hna : isArchive ToLower file = false := by
        unfold isArchive
        cases hd : file.IsDir <;> cases hz : HasSuffix (ToLower file.Name) ".zip" <;>
          simp [hd, hz] at hskip ⊢
      have hp : archivePaths ToLower dir (file :: files) = archivePaths ToLower dir files := by
        simp [archivePaths, List.filter_cons, hna]
      rw [if_pos hskip, hp]
      rw [hp] at h
      exact ih tr processed h
    · have hia : isArchive ToLower file = true := by
        unfold isArchive
        cases hd : file.IsDir <;> cases hz : HasSuffix (ToLower file.Name) ".zip" <;>
          simp [hd, hz] at hskip ⊢
      have hp : archivePaths ToLower dir (file :: files) =
          Join [dir, file.Name] :: archivePaths ToLower dir files := by
        simp [archivePaths, List.filter_cons, hia]
      rw [if_neg hskip, hp]
      rw [hp] at h
      obtain ⟨tr1, h1, h2⟩ := h
      rw [h1]
      simp only
      rw [ih tr1 _ h2]
      simp

theorem unzipLoop_firstFailure (w : World) (ToLower : String → String) (dir : String)
    (files : List DirEntry) (tr tr1 tr2 : List FsOp) (processed : List String)
    (pre : List DirEntry) (a : DirEntry) (post : List DirEntry) (e : String)
    (hsplit : archives ToLower files = pre ++ a :: post)
    (hpre : AllSucceed w dir (pre.map (fun file => Join [dir, file.Name])) tr tr1)
    (hfail : extractZip w (Join [dir, a.Name]) dir tr1 = (tr2, some e)) :
    unzipLoop w ToLower dir files tr processed =
      ⟨tr2, processed ++ pre.map (fun file => Join [dir, file.Name]),
        some ("ошибка распаковки " ++ a.Name ++ ": " ++ e)⟩ := by
  induction files generalizing tr processed pre with
  | nil => simp [archives] at hsplit
  | cons file files ih =>
    rw [unzipLoop_cons]
    by_cases hskip : (file.IsDir || !HasSuffix (ToLower file.Name) ".zip") = true
    · have hna : isArchive ToLower file = false := by
        unfold isArchive
        cases hd : file.IsDir <;> cases hz : HasSuffix (ToLower file.Name) ".zip" <;>
          simp [hd, hz] at hskip ⊢
      have hp : archives ToLower (file :: files) = archives ToLower files := by
        simp [archives, List.filter_cons, hna]
      rw [if_pos hskip]
      rw [hp] at hsplit
      exact ih tr processed pre hsplit hpre
    · have hia : isArchive ToLower file = true := by
        unfold isArchive
        cases hd : file.IsDir <;> cases hz : HasSuffix (ToLower file.Name) ".zip" <;>
          simp [hd, hz] at hskip ⊢
      have hp : archives ToLower (file :: files) = file :: archives ToLower files := by
        simp [archives, List.filter_cons, hia]
      rw [if_neg hskip]
      rw [hp] at hsplit
      cases pre with
      | nil =>
        simp only [List.nil_append, List.cons.injEq] at hsplit
        obtain ⟨rfl, _⟩ := hsplit
        simp only [List.map_nil, AllSucceed] at hpre
        subst hpre
        rw [hfail]
        simp
      | cons b pre' =>
        simp only [List.cons_append, List.cons.injEq] at hsplit
        obtain ⟨rfl, hrest⟩ := hsplit
        simp only [List.map_cons, AllSucceed] at hpre
        obtain ⟨t, h1, h2⟩ := hpre
        rw [h1]
        simp only
        rw [ih t _ pre' hrest h2]
        simp

/-! ## The archive extractor under an absolute root -/

/-- Whatever the destination root, every path that `extractZip` hands to a
creating call is the `fpath` of an entry that passed the path test or, for
`MkdirAll`, the parent directory of such an `fpath`; the first entry that
fails the test ends the extraction with an error, the path error when the
entries before it went through, and no call is issued for it or for a later
entry; the cleaned root itself and a sibling that only shares its spelling
fail the test.  For an absolute root, a path that passes the test is strictly
inside the root, its parent is the root or strictly inside it, and the entry
`../escape.xml` fails the test. -/
theorem extractZip_contained (w : World) (src dest : String) (tr : List FsOp)
    (files : List ZipFile) (hopen : w.openReader tr src = .ok files) :
    (∃ ops, (extractZip w src dest tr).1 = tr ++ FsOp.openReader src :: ops ∧
      ∀ op ∈ ops, ∀ p, op.target = some p →
        ∃ f ∈ files, pathAllowed dest (entryPath dest f.Name) = true ∧
          (p = entryPath dest f.Name ∨
            (op = FsOp.mkdirAll p ∧ p = Dir (entryPath dest f.Name)))) ∧
    (∀ pre f post, files = pre ++ f :: post →
      pathAllowed dest (entryPath dest f.Name) = false →
        (extractZip w src dest tr).1 =
          (extractEntries w dest pre (tr ++ [FsOp.openReader src])).1 ∧
        (extractZip w src dest tr).2 ≠ none ∧
        ((extractEntries w dest pre (tr ++ [FsOp.openReader src])).2 = none →
          (extractZip w src dest tr).2 = some (pathError (entryPath dest f.Name)))) ∧
    pathAllowed dest (Clean dest) = false ∧
    (∀ s : String, s.data.head? ≠ some '/' → pathAllowed dest (Clean dest ++ s) = false) ∧
    (dest.data.head? = some '/' →
      (∀ name, pathAllowed dest (entryPath dest name) = true →
        StrictlyInside dest (entryPath dest name) ∧
        (Dir (entryPath dest name) = Clean dest ∨
          (pathAllowed dest (Dir (entryPath dest name)) = true ∧
            StrictlyInside dest (Dir (entryPath dest name))))) ∧
      pathAllowed dest (entryPath dest "../escape.xml") = false) := by
  rw [extractZip_opened w src dest tr files hopen]
  refine ⟨?_, ?_, root_itself_rejected dest, sibling_rejected dest, ?_⟩
  · obtain ⟨ops, h1, h2⟩ := extractEntries_trace w dest files (tr ++ [FsOp.openReader src])
    refine ⟨ops, by simp [h1], ?_⟩
    intro op hop p ht
    obtain ⟨f, hf, ha, hm⟩ := h2 op hop
    exact ⟨f, hf, ha, entryOps_target hm ht⟩
  · intro pre f post hfiles hrej
    subst hfiles
    rw [extractEntries_append]
    cases hr : extractEntries w dest pre (tr ++ [FsOp.openReader src]) with
    | mk tr1 err =>
      cases err with
      | some e => simp
      | none => simp [extractEntries_rejected w dest f post tr1 hrej]
  · intro hroot
    refine ⟨fun name ha => ⟨?_, ?_⟩, escape_rejected hroot⟩
    · exact allowed_inside hroot (cleanRooted_entryPath hroot name) ha
    · exact dir_allowed hroot (cleanRooted_entryPath hroot name) ha

/-- Scenario 4 under the absolute root `/work`: in `/work/evil.ZIP` the
second entry `../escape.xml` ends the extraction with the path error; only
the calls of the first entry were issued, none for `../escape.xml` or
`late.xml`. -/
theorem extractZip_contained_example :
    sampleWorld.openReader [] "/work/evil.ZIP" =
      .ok [⟨"ok.xml", false, 420, [3]⟩, ⟨"../escape.xml", false, 420, [4]⟩,
        ⟨"late.xml", false, 420, [5]⟩] ∧
    pathAllowed "/work" (entryPath "/work" "../escape.xml") = false ∧
    extractZip sampleWorld "/work/evil.ZIP" "/work" [] =
      ([FsOp.openReader "/work/evil.ZIP", FsOp.mkdirAll "/work",
        FsOp.openFile "/work/ok.xml" 420, FsOp.openEntry "ok.xml",
        FsOp.copy "/work/ok.xml" [3]], some (pathError "/escape.xml")) :=
  ⟨rfl,
    ((extractZip_contained sampleWorld "/work/evil.ZIP" "/work" [] _ rfl).2.2.2.2 (by decide)).2,
    by decide⟩

/-! ## Claims on the archive extractor -/

/-- C1: `extractZip` at the root `..` on an archive whose only entry is the
file `../escape.xml`.  The path `../../escape.xml` of the entry starts with
`../`, so the path test passes: no error is returned and the file is created
and written at `../../escape.xml`, with `MkdirAll` on `../..`.  That path is
not strictly inside the root `..` (as `../ok.xml` is): from the working
directory `/w/x` the root is `/w` and the file is `/escape.xml`. -/
theorem relative_root_escape :
    sampleWorld.openReader [] "x.zip" = .ok [⟨"../escape.xml", false, 420, [4]⟩] ∧
    entryPath ".." "../escape.xml" = "../../escape.xml" ∧
    pathAllowed ".." "../../escape.xml" = true ∧
    extractZip sampleWorld "x.zip" ".." [] =
      ([FsOp.openReader "x.zip", FsOp.mkdirAll "../..", FsOp.openFile "../../escape.xml" 420,
        FsOp.openEntry "../escape.xml", FsOp.copy "../../escape.xml" [4]], none) ∧
    ¬ StrictlyInside ".." "../../escape.xml" ∧ StrictlyInside ".." "../ok.xml" ∧
    Abs "/w/x" ".." = "/w" ∧ Abs "/w/x" "../../escape.xml" = "/escape.xml" ∧
    ¬ StrictlyInside "/w" "/escape.xml" ∧ StrictlyInside "/w" (Abs "/w/x" "../ok.xml") := by
  have e0 : elements (Clean "..") = [['.', '.']] := by decide
  have e1 : elements (Clean "../../escape.xml") =
      [['.', '.'], ['.', '.'], ("escape.xml" : String).data] := by decide
  have e2 : elements (Clean "/w") = [['w']] := by decide
  have e3 : elements (Clean "/escape.xml") = [("escape.xml" : String).data] := by decide
  refine ⟨rfl, by decide, by decide, by decide, ?_, ?_, by decide, by decide, ?_, ?_⟩
  · rintro ⟨rest, _, h, hn⟩
    rw [e0, e1] at h
    simp only [List.cons_append, List.nil_append, List.cons.injEq, true_and] at h
    exact hn (h ▸ List.mem_cons_self _ _)
  · exact ⟨[("ok.xml" : String).data], by simp, by decide, by decide⟩
  · rintro ⟨rest, _, h, _⟩
    rw [e2, e3] at h
    simp only [List.cons_append, List.nil_append, List.cons.injEq] at h
    exact absurd h.1 (by decide)
  · exact ⟨[("ok.xml" : String).data], by simp, by decide, by decide⟩

/-- C2, amended: an entry reached by the loop is rejected with the path
error, nothing being written for it, exactly when its `fpath` does not start
with the cleaned root followed by the separator.  An entry whose `fpath`
passes the test is extracted at `fpath`: its first call, `MkdirAll` on
`fpath` for a directory and on the parent of `fpath` for a file, is issued
right after the calls of the entries before it; and when none of its calls
fails, all of them are issued, `MkdirAll(fpath)` for a directory and
`MkdirAll(Dir(fpath))`, `OpenFile(fpath)`, `Open` and the copy into `fpath`
for a file, and the loop goes on with the next entry. -/
theorem entry_rejected_iff (w : World) (src dest : String) (tr tr1 : List FsOp)
    (pre : List ZipFile) (f : ZipFile) (post : List ZipFile)
    (hopen : w.openReader tr src = .ok (pre ++ f :: post))
    (hpre : extractEntries w dest pre (tr ++ [FsOp.openReader src]) = (tr1, none)) :
    (extractZip w src dest tr = (tr1, some (pathError (entryPath dest f.Name))) ↔
      pathAllowed dest (entryPath dest f.Name) = false) ∧
    (pathAllowed dest (entryPath dest f.Name) = true →
      (∃ later, (extractZip w src dest tr).1 =
        tr1 ++ FsOp.mkdirAll
          (if f.IsDir then entryPath dest f.Name else Dir (entryPath dest f.Name)) :: later) ∧
      ((∀ (tr' : List FsOp) (op : FsOp),
          op ∈ entryOps f (entryPath dest f.Name) → w.fail tr' op = none) →
        (f.IsDir = true →
          extractZip w src dest tr =
            extractEntries w dest post (tr1 ++ [FsOp.mkdirAll (entryPath dest f.Name)])) ∧
        (f.IsDir = false →
          extractZip w src dest tr =
            extractEntries w dest post
              (tr1 ++ [FsOp.mkdirAll (Dir (entryPath dest f.Name)),
                FsOp.openFile (entryPath dest f.Name) f.Mode, FsOp.openEntry f.Name,
                FsOp.copy (entryPath dest f.Name) f.Content])) ∧
        ∃ later, (extractZip w src dest tr).1 =
          tr1 ++ (if f.IsDir then [FsOp.mkdirAll (entryPath dest f.Name)]
            else [FsOp.mkdirAll (Dir (entryPath dest f.Name)),
              FsOp.openFile (entryPath dest f.Name) f.Mode, FsOp.openEntry f.Name,
              FsOp.copy (entryPath dest f.Name) f.Content]) ++ later)) := by
  rw [extractZip_opened w src dest tr _ hopen, extractEntries_append, hpre]
  simp only
  refine ⟨⟨?_, ?_⟩, ?_⟩
  · intro h
    cases ha : pathAllowed dest (entryPath dest f.Name) with
    | false => rfl
    | true =>
      exfalso
      have := extractEntries_allowed_trace w dest f post tr1 ha
      rw [h] at this
      exact this rfl
  · intro h
    exact extractEntries_rejected w dest f post tr1 h
  · intro ha
    refine ⟨?_, ?_⟩
    · cases hd : f.IsDir with
      | true =>
        exact extractEntries_first w dest f post tr1 _ [] ha (by simp [entryOps, hd])
      | false =>
        exact extractEntries_first w dest f post tr1 _ _ ha (by simp [entryOps, hd]; rfl)
    · intro hok
      have hrun := extractEntries_ok w dest f post tr1 ha hok
      refine ⟨?_, ?_, ?_⟩
      · intro hd
        rw [hrun]
        simp [entryOps, hd]
      · intro hd
        rw [hrun]
        simp [entryOps, hd]
      · rw [hrun]
        obtain ⟨more, h3, _⟩ :=
          extractEntries_trace w dest post (tr1 ++ entryOps f (entryPath dest f.Name))
        refine ⟨more, ?_⟩
        rw [h3]
        cases hd : f.IsDir <;> simp [entryOps, hd]

/-- C2 at `/work/evil.ZIP` and `/work/odd.zip`: the entry `../escape.xml`
after `ok.xml` resolves to `/escape.xml` and is rejected; the entry
`/etc/passwd` after `a/../b.xml` resolves to `/work/etc/passwd` and is
written there. -/
theorem entry_rejected_iff_witness :
    pathAllowed "/work" (entryPath "/work" "../escape.xml") = false ∧
    extractZip sampleWorld "/work/evil.ZIP" "/work" [] =
      ([FsOp.openReader "/work/evil.ZIP", FsOp.mkdirAll "/work",
        FsOp.openFile "/work/ok.xml" 420, FsOp.openEntry "ok.xml",
        FsOp.copy "/work/ok.xml" [3]], some (pathError (entryPath "/work" "../escape.xml"))) ∧
    entryPath "/work" "/etc/passwd" = "/work/etc/passwd" ∧
    extractZip sampleWorld "/work/odd.zip" "/work" [] =
      extractEntries sampleWorld "/work" []
        ([FsOp.openReader "/work/odd.zip", FsOp.mkdirAll "/work",
          FsOp.openFile "/work/b.xml" 420, FsOp.openEntry "a/../b.xml",
          FsOp.copy "/work/b.xml" [6]] ++
          [FsOp.mkdirAll (Dir (entryPath "/work" "/etc/passwd")),
            FsOp.openFile (entryPath "/work" "/etc/passwd") 420, FsOp.openEntry "/etc/passwd",
            FsOp.copy (entryPath "/work" "/etc/passwd") [7]]) :=
  ⟨by decide,
    ((entry_rejected_iff sampleWorld "/work/evil.ZIP" "/work" [] _
      [⟨"ok.xml", false, 420, [3]⟩] ⟨"../escape.xml", false, 420, [4]⟩
      [⟨"late.xml", false, 420, [5]⟩] rfl (by decide)).1).2 (by decide),
    by decide,
    ((((entry_rejected_iff sampleWorld "/work/odd.zip" "/work" [] _
      [⟨"a/../b.xml", false, 420, [6]⟩] ⟨"/etc/passwd", false, 420, [7]⟩ [] rfl
      (by decide)).2 (by decide)).2 (fun _ _ _ => rfl)).2.1 rfl)⟩

/-- C2 fails: in `/work/odd.zip` the name `a/../b.xml` has a `..` segment
and the name `/etc/passwd` is absolute; neither is rejected, both are written
under `/work`. -/
theorem dotdot_and_absolute_extracted :
    ['.', '.'] ∈ splitSep ("a/../b.xml" : String).data ∧
    ("/etc/passwd" : String).data.head? = some '/' ∧
    sampleWorld.openReader [] "/work/odd.zip" =
      .ok [⟨"a/../b.xml", false, 420, [6]⟩, ⟨"/etc/passwd", false, 420, [7]⟩] ∧
    extractZip sampleWorld "/work/odd.zip" "/work" [] =
      ([FsOp.openReader "/work/odd.zip", FsOp.mkdirAll "/work",
        FsOp.openFile "/work/b.xml" 420, FsOp.openEntry "a/../b.xml",
        FsOp.copy "/work/b.xml" [6], FsOp.mkdirAll "/work/etc",
        FsOp.openFile "/work/etc/passwd" 420, FsOp.openEntry "/etc/passwd",
        FsOp.copy "/work/etc/passwd" [7]], none) := by
  refine ⟨by decide, by decide, rfl, by decide⟩

/-- C10: `unzipArchives` calls `extractZip` only for the entries of the
listing that are not directories and whose lower-cased name ends in `.zip`,
in listing order.  When every one of these extractions succeeds, one after
the other, it returns exactly their paths in that order and no error.  When
the extractions of the archives before one archive succeed and the
extraction of that archive fails, it stops there: no call is issued after
those of the failed extraction, and it returns an error naming the failed
archive together with exactly the paths of the archives before it. -/
theorem unzipArchives_batch (w : World) (ToLower : String → String) (dir : String)
    (tr : List FsOp) (files : List DirEntry) (hread : w.readDir tr dir = .ok files) :
    (∀ tr', AllSucceed w dir
        ((files.filter (fun file => !file.IsDir && HasSuffix (ToLower file.Name) ".zip")).map
          (fun file => Join [dir, file.Name])) (tr ++ [FsOp.readDir dir]) tr' →
      unzipArchives w ToLower dir tr =
        ⟨tr', (files.filter
            (fun file => !file.IsDir && HasSuffix (ToLower file.Name) ".zip")).map
          (fun file => Join [dir, file.Name]), none⟩) ∧
    (∀ (pre : List DirEntry) (a : DirEntry) (post : List DirEntry) (tr1 tr2 : List FsOp)
        (e : String),
      files.filter (fun file => !file.IsDir && HasSuffix (ToLower file.Name) ".zip") =
        pre ++ a :: post →
      AllSucceed w dir (pre.map (fun file => Join [dir, file.Name]))
        (tr ++ [FsOp.readDir dir]) tr1 →
      extractZip w (Join [dir, a.Name]) dir tr1 = (tr2, some e) →
      unzipArchives w ToLower dir tr =
        ⟨tr2, pre.map (fun file => Join [dir, file.Name]),
          some ("ошибка распаковки " ++ a.Name ++ ": " ++ e)⟩) ∧
    (∃ ops, (unzipArchives w ToLower dir tr).trace = tr ++ FsOp.readDir dir :: ops ∧
      (((unzipArchives w ToLower dir tr).err = none ∧
        attempted ops = archivePaths ToLower dir files) ∨
      (∃ k : Nat, k < (archivePaths ToLower dir files).length ∧
        (unzipArchives w ToLower dir tr).err ≠ none ∧
        (unzipArchives w ToLower dir tr).processed = (archivePaths ToLower dir files).take k ∧
        attempted ops = (archivePaths ToLower dir files).take (k + 1)))) := by
  have hu : unzipArchives w ToLower dir tr =
      unzipLoop w ToLower dir files (tr ++ [FsOp.readDir dir]) [] := by
    simp [unzipArchives, hread]
  have hf : files.filter (fun file => !file.IsDir && HasSuffix (ToLower file.Name) ".zip") =
      archives ToLower files := rfl
  rw [hu, hf]
  refine ⟨?_, ?_, ?_⟩
  · intro tr' h
    have := unzipLoop_allSucceed w ToLower dir files (tr ++ [FsOp.readDir dir]) tr' [] h
    simpa [archivePaths, archives] using this
  · intro pre a post tr1 tr2 e hsplit hpre hfail
    have := unzipLoop_firstFailure w ToLower dir files (tr ++ [FsOp.readDir dir]) tr1 tr2 []
      pre a post e hsplit hpre hfail
    simpa using this
  · obtain ⟨ops, h1, h2⟩ := unzipLoop_spec w ToLower dir files (tr ++ [FsOp.readDir dir]) []
    refine ⟨ops, by simp [h1], ?_⟩
    rcases h2 with ⟨e1, _, e3⟩ | ⟨k, e, trk, e1, e2, e3, e4, _⟩
    · exact Or.inl ⟨e1, e3⟩
    · right
      refine ⟨k, e1, ?_, by simpa using e2, e3⟩
      rw [e4]; simp

/-- C10 at `/work`, listed as `a.zip`, `dir.zip` (a directory), `evil.ZIP`,
`notes.txt`, `odd.zip`, `sub`: `a.zip` is extracted, `evil.ZIP` fails on its
entry `../escape.xml`, `odd.zip` is not attempted; at `/good` both archives
are extracted and returned. -/
theorem unzipArchives_batch_witness :
    sampleWorld.readDir [] "/work" = .ok sampleListing ∧
    unzipArchives sampleWorld asciiLower "/work" [] =
      ⟨[FsOp.readDir "/work", FsOp.openReader "/work/a.zip", FsOp.mkdirAll "/work/d",
          FsOp.mkdirAll "/work/d", FsOp.openFile "/work/d/r.xml" 420, FsOp.openEntry "d/r.xml",
          FsOp.copy "/work/d/r.xml" [1, 2], FsOp.openReader "/work/evil.ZIP",
          FsOp.mkdirAll "/work", FsOp.openFile "/work/ok.xml" 420, FsOp.openEntry "ok.xml",
          FsOp.copy "/work/ok.xml" [3]],
        ["/work/a.zip"],
        some "ошибка распаковки evil.ZIP: недопустимый путь: /escape.xml"⟩ ∧
    attempted (unzipArchives sampleWorld asciiLower "/work" []).trace =
      ["/work/a.zip", "/work/evil.ZIP"] ∧
    (unzipArchives sampleWorld asciiLower "/good" []).processed =
      ["/good/a.zip", "/good/odd.zip"] ∧
    (unzipArchives sampleWorld asciiLower "/good" []).err = none :=
  ⟨rfl,
    (unzipArchives_batch sampleWorld asciiLower "/work" [] sampleListing rfl).2.1
      [⟨"a.zip", false⟩] ⟨"evil.ZIP", false⟩ [⟨"odd.zip", false⟩]
      [FsOp.readDir "/work", FsOp.openReader "/work/a.zip", FsOp.mkdirAll "/work/d",
        FsOp.mkdirAll "/work/d", FsOp.openFile "/work/d/r.xml" 420, FsOp.openEntry "d/r.xml",
        FsOp.copy "/work/d/r.xml" [1, 2]]
      _ _ (by decide) ⟨_, by decide, rfl⟩ (by decide),
    by decide, by decide, by decide⟩

end MPReportParser
